import Mathlib

/-!
Verification development for a small relational database engine
(SQL compiler + pull-based executor + page-structured storage).

The Lean definitions below are shallow embeddings of the Python source:

* `src/execution/operators.py`   — predicate evaluation, Filter, OrderBy, Join
* `src/execution/system_catalog.py` — the persisted system catalog
* `src/compiler/catalog.py`, `src/compiler/semantic_analyzer.py`
* `src/compiler/planner.py`      — plan construction and predicate pushdown
* `src/storage/page.py`, `src/storage/disk_manager.py`,
  `src/storage/buffer_manager.py`, `src/storage/table.py`

Python dynamic values that can live in a row are modelled by `PyVal`
(`None`, `bool`, `int`, `str`); rows (Python dicts mapping column names to
values) are modelled by insertion-ordered association lists, which is how
CPython dicts behave.  Python exceptions are modelled with `Except`/`Option`.
-/

set_option maxRecDepth 16384

namespace DB

/-- A Python runtime value as stored in a row: `None`, `bool`, `int` or `str`.
(The engine only ever stores these four kinds in pages: `INSERT`/`UPDATE`
write integer and string literals, missing columns default to `None`, and the
tombstone marker `"__deleted__"` is the boolean `True`.) -/
inductive PyVal where
  | null : PyVal
  | bool (b : Bool) : PyVal
  | int (n : Int) : PyVal
  | str (s : String) : PyVal
deriving DecidableEq, Repr

/-- A row: a Python dict from column name to value, insertion ordered. -/
abbrev Row := List (String × PyVal)

/-- `dict.get(k)`: the first binding of `k`, or Python `None` when missing. -/
def rowGet (row : Row) (k : String) : PyVal :=
  match row.find? (fun p => p.1 == k) with
  | some p => p.2
  | none => .null

/-- `k in dict`: key membership test. -/
def rowHasKey (row : Row) (k : String) : Bool :=
  row.any (fun p => p.1 == k)

/-- `dict[k] = v`: overwrite the value of an existing key in place (keeping
its position), or append a fresh binding — CPython dict assignment. -/
def rowSet (row : Row) (k : String) (v : PyVal) : Row :=
  if rowHasKey row k then
    row.map (fun p => if p.1 == k then (p.1, v) else p)
  else
    row ++ [(k, v)]

/-- Python's numeric view of a value: `bool` is an `int` subclass
(`True == 1`), so both kinds compare numerically. -/
def asNum : PyVal → Option Int
  | .bool b => some (if b then 1 else 0)
  | .int n => some n
  | _ => none

/-- Code-point lexicographic order on character lists — Python `str < str`. -/
def charListLt : List Char → List Char → Bool
  | [], [] => false
  | [], _ :: _ => true
  | _ :: _, [] => false
  | x :: xs, y :: ys =>
    if x < y then true else if y < x then false else charListLt xs ys

/-- Python `==` on our value universe.  Total: `None == None` is `True`,
numbers compare by value (`True == 1`), strings by content, and any
cross-kind comparison is `False`. -/
def pyEq (a b : PyVal) : Bool :=
  match a, b with
  | .null, .null => true
  | .str s, .str t => s == t
  | a, b =>
    match asNum a, asNum b with
    | some x, some y => x == y
    | _, _ => false

/-- Python `<`: defined for two numbers or two strings, otherwise it raises
`TypeError` (modelled by `none`) — in particular whenever an operand is
`None` or an integer meets a string. -/
def pyLt (a b : PyVal) : Option Bool :=
  match asNum a, asNum b with
  | some x, some y => some (decide (x < y))
  | _, _ =>
    match a, b with
    | .str s, .str t => some (charListLt s.data t.data)
    | _, _ => none

/-- Python `<=`, with the same partiality as `pyLt`. -/
def pyLe (a b : PyVal) : Option Bool :=
  match asNum a, asNum b with
  | some x, some y => some (decide (x ≤ y))
  | _, _ =>
    match a, b with
    | .str s, .str t => some (!charListLt t.data s.data)
    | _, _ => none

/-- Drop everything up to and including the first `'.'`. -/
def dropThroughDot : List Char → List Char
  | [] => []
  | c :: cs => if c = '.' then cs else dropThroughDot cs

/-- `_extract_column_name` (`src/execution/operators.py`): strip a leading
`qualifier.` from a column reference — Python `s.split('.', 1)[1]`. -/
def extractColumnName (s : String) : String :=
  if s.data.contains '.' then String.mk (dropThroughDot s.data) else s

/-- The left operand of `eval_predicate`: always looked up in the row after
qualifier stripping; a lookup miss resolves to `None`. -/
def resolveLeft (row : Row) (left : String) : PyVal :=
  rowGet row (extractColumnName left)

/-- The right operand of `eval_predicate` (`src/execution/operators.py`
lines 11–23): a string is first qualifier-stripped; if the result still
contains a dot it is looked up in the row (missing ⇒ `None`), else if it is
a key of the row it is looked up, otherwise it is kept as a string literal.
Non-string operands are literals. -/
def resolveRight (row : Row) (right : PyVal) : PyVal :=
  match right with
  | .str s0 =>
    let s := extractColumnName s0
    if s.data.contains '.' then rowGet row s
    else if rowHasKey row s then rowGet row s
    else .str s
  | v => v

/-- `eval_predicate` (`src/execution/operators.py` lines 7–37): resolve the
two operands against the row, then dispatch on the operator.  `=` and
`<>`/`!=` use Python `==`; the four order comparisons use Python's partial
order and raise `TypeError` (modelled as `Except.error`) on `None` or mixed
integer/string operands; an unknown operator raises `ValueError`. -/
def evalPredicate (row : Row) (left : String) (op : String) (right : PyVal) :
    Except String Bool :=
  let val := resolveLeft row left
  let rightVal := resolveRight row right
  if op = "=" then .ok (pyEq val rightVal)
  else if op = "<>" ∨ op = "!=" then .ok (!pyEq val rightVal)
  else if op = "<" then
    match pyLt val rightVal with
    | some b => .ok b
    | none => .error "TypeError"
  else if op = ">" then
    match pyLt rightVal val with
    | some b => .ok b
    | none => .error "TypeError"
  else if op = "<=" then
    match pyLe val rightVal with
    | some b => .ok b
    | none => .error "TypeError"
  else if op = ">=" then
    match pyLe rightVal val with
    | some b => .ok b
    | none => .error "TypeError"
  else .error "ValueError: unsupported comparison operator"

example : evalPredicate [] "a" "<" (.int 5) = .error "TypeError" := rfl
example : evalPredicate [] "a" "=" (.int 5) = .ok false := rfl
example : evalPredicate [("a", .int 1)] "a" "<>" (.str "x") = .ok true := rfl
example : evalPredicate [] "a.b.c" "=" (.str "x.y.z") = .ok true := rfl
example : evalPredicate [("a", .int 3)] "t.a" "<" (.int 5) = .ok true := rfl

/-! ### OrderBy (`src/execution/operators.py`, class `OrderBy`) -/

/-- One `ORDER BY` key: a column name and a direction (`"ASC"`/`"DESC"`). -/
structure OrderSpec where
  column : String
  direction : String
deriving DecidableEq, Repr

/-- A sort key value as produced by `OrderBy.execute`'s `sort_key`: either a
float infinity (substituted for `None`), a number, or a string. -/
inductive SKey where
  | negInf : SKey
  | posInf : SKey
  | int (n : Int) : SKey
  | str (s : String) : SKey
deriving DecidableEq, Repr

/-- The per-key transformation in `sort_key`: `None` becomes `-inf` for
`ASC` and `+inf` for `DESC`; then for `DESC` a numeric value (floats
included, hence also the `+inf` just substituted) is negated while a string
is left untouched. -/
def sortKeyOne (spec : OrderSpec) (row : Row) : SKey :=
  let value : SKey :=
    match rowGet row spec.column with
    | .null => if spec.direction = "ASC" then .negInf else .posInf
    | .bool b => .int (if b then 1 else 0)
    | .int n => .int n
    | .str s => .str s
  if spec.direction = "DESC" then
    match value with
    | .negInf => .posInf
    | .posInf => .negInf
    | .int n => .int (-n)
    | .str s => .str s
  else value

/-- The full sort key of a row: the list of per-spec keys. -/
def sortKey (specs : List OrderSpec) (row : Row) : List SKey :=
  specs.map (fun spec => sortKeyOne spec row)

/-- Python `==` on sort keys (total; cross-kind gives `False`,
`inf == inf` is `True`). -/
def skeyEq (a b : SKey) : Bool :=
  match a, b with
  | .negInf, .negInf => true
  | .posInf, .posInf => true
  | .int m, .int n => m == n
  | .str s, .str t => s == t
  | _, _ => false

/-- Python `<` on sort keys: defined between two numbers (the infinities are
floats, and floats compare with ints), and between two strings; a number
against a string raises `TypeError` (`none`). -/
def skeyLt (a b : SKey) : Option Bool :=
  match a, b with
  | .str s, .str t => some (charListLt s.data t.data)
  | .str _, _ => none
  | _, .str _ => none
  | .negInf, .negInf => some false
  | .negInf, _ => some true
  | _, .negInf => some false
  | .posInf, _ => some false
  | .int _, .posInf => some true
  | .int m, .int n => some (decide (m < n))

/-- Python `<` on two lists of sort keys: skip `==`-equal prefixes, then
compare the first differing entries with `<` (which may raise); a strict
prefix is smaller. -/
def keyListLt : List SKey → List SKey → Option Bool
  | [], [] => some false
  | [], _ :: _ => some true
  | _ :: _, [] => some false
  | x :: xs, y :: ys =>
    if skeyEq x y then keyListLt xs ys
    else skeyLt x y

/-- Whether Python can compare these two key lists without raising. -/
def keyListComparable (a b : List SKey) : Bool :=
  (keyListLt a b).isSome

/-- Every unordered pair drawn from the list is comparable. -/
def allComparable : List (List SKey × Row) → Bool
  | [] => true
  | (k, _) :: rest =>
    rest.all (fun p => keyListComparable k p.1) && allComparable rest

/-- Strict "sorts before" on keyed rows, total on the comparable domain
(`false` when the comparison would raise — only used under
`allComparable`). -/
def keyedLt (a b : List SKey × Row) : Bool :=
  match keyListLt a.1 b.1 with
  | some v => v
  | none => false

/-- Stable insertion of a keyed row: it passes over every earlier row it is
not strictly smaller than.  A stable binary insertion sort computes the same
list as any stable comparison sort (such as Python's Timsort) for a total
preorder, so this models `list.sort(key=...)` on the comparable domain. -/
def insertKeyed (x : List SKey × Row) : List (List SKey × Row) → List (List SKey × Row)
  | [] => [x]
  | y :: ys => if keyedLt x y then x :: y :: ys else y :: insertKeyed x ys

/-- Stable insertion sort of keyed rows. -/
def sortKeyed : List (List SKey × Row) → List (List SKey × Row)
  | [] => []
  | x :: xs => insertKeyed x (sortKeyed xs)

/-- `OrderBy.execute` (`src/execution/operators.py` lines 194–218):
materialize the child's rows, compute each row's sort key, and stable-sort.
`none` models the `TypeError` Python raises when the sort compares two
incomparable keys (for two rows the sort always compares them; in general a
comparison sort must compare incomparable key classes to order them, so the
sort is modelled as failing whenever some pair of keys is incomparable). -/
def orderByExecute (specs : List OrderSpec) (rows : List Row) : Option (List Row) :=
  let keyed := rows.map (fun r => (sortKey specs r, r))
  if allComparable keyed then
    some ((sortKeyed keyed).map (fun p => p.2))
  else
    none

example :
    orderByExecute [⟨"x", "ASC"⟩]
      [[("x", .str "a")], [("x", .null)]] = none := rfl
example :
    orderByExecute [⟨"x", "ASC"⟩]
      [[("x", .int 2)], [("x", .null)], [("x", .int 1)]] =
      some [[("x", .null)], [("x", .int 1)], [("x", .int 2)]] := rfl
example :
    orderByExecute [⟨"x", "DESC"⟩]
      [[("x", .int 2)], [("x", .null)], [("x", .int 1)]] =
      some [[("x", .null)], [("x", .int 2)], [("x", .int 1)]] := rfl

/-! ### The persisted system catalog (`src/execution/system_catalog.py`)

The catalog table `pg_catalog` is viewed through its sequential scan: a list
of live rows with columns `table_name`, `column_name`, `column_type`,
`column_order`.  All the catalog operations below take that row list. -/

/-- Python `str.lower()` (character-wise; identifiers here are ASCII). -/
def strLower (s : String) : String := String.mk (s.data.map Char.toLower)

/-- Python `str.upper()` (character-wise; type names here are ASCII). -/
def strUpper (s : String) : String := String.mk (s.data.map Char.toUpper)

/-- A column definition as passed to `create_table`: name and declared type. -/
structure ColDef where
  name : String
  type : String
deriving DecidableEq, Repr

/-- `SystemCatalog.has_table`: scan the catalog rows for a row whose
`table_name` equals the requested name — Python `==`, an exact,
case-sensitive string comparison. -/
def sysHasTable (crows : List Row) (tableName : String) : Bool :=
  crows.any (fun r => pyEq (rowGet r "table_name") (.str tableName))

/-- The rows appended by `SystemCatalog._register_table`: one catalog row
per column, carrying the 0-based column order and the upper-cased type. -/
def registerRows (table : String) (columns : List ColDef) : List Row :=
  (List.range columns.length).zip columns |>.map (fun p =>
    [("table_name", .str table),
     ("column_name", .str p.2.name),
     ("column_type", .str (strUpper p.2.type)),
     ("column_order", .int p.1)])

/-- `SystemCatalog.create_table`: raise `ValueError` when `has_table`
already sees the name (before anything is appended), otherwise append one
catalog row per column. -/
def sysCreateTable (crows : List Row) (table : String) (columns : List ColDef) :
    Except String (List Row) :=
  if sysHasTable crows table then .error ("table exists: " ++ table)
  else .ok (crows ++ registerRows table columns)

/-- The catalog rows after a `create_table` attempt: on error the raise in
`create_table` happens before any `append_row`, so the storage is the
untouched input. -/
def sysCreateTableAfter (crows : List Row) (table : String) (columns : List ColDef) :
    List Row :=
  match sysCreateTable crows table columns with
  | .ok crows' => crows'
  | .error _ => crows

/-- `SystemCatalog.get_table_columns` (without the final sort, which
reorders but never changes membership): the `name`/`type` pairs of the
catalog rows whose `table_name` equals the requested name exactly. -/
def sysGetTableColumns (crows : List Row) (table : String) : List (PyVal × PyVal) :=
  (crows.filter (fun r => pyEq (rowGet r "table_name") (.str table))).map
    (fun r => (rowGet r "column_name", rowGet r "column_type"))

/-! ### The compiler-side catalog snapshot (`src/compiler/catalog.py`) and
`SemanticAnalyzer._check_create_table` (`src/compiler/semantic_analyzer.py`) -/

/-- The compiler's in-memory catalog: a dict keyed by the lower-cased table
name (`Catalog.create_table` stores under `name.lower()`). -/
abbrev CompCatalog := List (String × (String × List ColDef))

/-- `Catalog.has_table`: membership of `name.lower()` among the keys. -/
def catHasTable (cat : CompCatalog) (name : String) : Bool :=
  cat.any (fun p => p.1 == strLower name)

/-- `Catalog.create_table`: reject when `name.lower()` is already a key,
else store the table info under `name.lower()`. -/
def catCreateTable (cat : CompCatalog) (name : String) (columns : List ColDef) :
    Except String CompCatalog :=
  if catHasTable cat name then .error ("table exists: " ++ name)
  else .ok (cat ++ [(strLower name, (name, columns))])

/-- The column loop of `SemanticAnalyzer._check_create_table`: reject
case-insensitively duplicated column names (against the `seen` set) and
types outside `{INT, TEXT, VARCHAR}`. -/
def checkCreateTableColumns : List ColDef → List String → Except String Unit
  | [], _ => .ok ()
  | col :: rest, seen =>
    if seen.contains (strLower col.name) then
      .error ("duplicate column: " ++ col.name)
    else if strUpper col.type ≠ "INT" ∧ strUpper col.type ≠ "TEXT" ∧
        strUpper col.type ≠ "VARCHAR" then
      .error ("unsupported type: " ++ col.type)
    else checkCreateTableColumns rest (seen ++ [strLower col.name])

/-- `SemanticAnalyzer._check_create_table`: fail when the snapshot already
has the table (case-insensitive via `Catalog.has_table`), then check the
column definitions. -/
def checkCreateTable (cat : CompCatalog) (table : String) (columns : List ColDef) :
    Except String Unit :=
  if catHasTable cat table then .error ("table exists: " ++ table)
  else checkCreateTableColumns columns []

example :
    sysHasTable [[("table_name", .str "foo")]] "Foo" = false := rfl
example :
    sysHasTable [[("table_name", .str "foo")]] "foo" = true := rfl
example :
    checkCreateTable [("foo", ("foo", []))] "FOO" [⟨"id", "INT"⟩] =
      .error "table exists: FOO" := rfl
example :
    sysCreateTable [[("table_name", .str "foo"), ("column_name", .str "id")]]
      "foo" [⟨"id", "INT"⟩] =
      .error "table exists: foo" := rfl

/-! ### Page serialization (`src/storage/page.py`)

A page holds an ordered list of rows (`PageL`).  `Page.serialize` JSON-dumps
`{"version":1,"rows":[…]}` with separators `(",", ":")` and
`ensure_ascii=False`, raises `PageFullError` when the UTF-8 byte length
exceeds `PAGE_SIZE = 4096`, and right-pads with zero bytes to exactly
`PAGE_SIZE`.  `Page.deserialize` strips trailing zero bytes, returns the
empty page on empty text, and otherwise JSON-parses.

The byte buffer is modelled as a `List Char` together with the UTF-8 byte
length function `utf8Len` (the payload text plus NUL padding characters —
NUL encodes as a single zero byte, and no other character's UTF-8 encoding
contains a zero byte, so stripping trailing zero bytes coincides with
stripping trailing NUL characters).  The JSON encoder mirrors
`json.dumps` for the value universe pages hold (`None`, `bool`, `int`,
`str`); the parser below mirrors `json.loads` on the grammar the encoder
emits (`json.loads` accepts more — whitespace, other key orders — but the
engine only ever deserializes its own serializer's output or an all-zero
fresh page). -/

/-- A page's row list. -/
abbrev PageL := List Row

/-- `PAGE_SIZE` from `src/storage/page.py`. -/
def PAGE_SIZE : Nat := 4096

/-- The NUL character (a zero byte). -/
def nulChar : Char := Char.ofNat 0

/-- UTF-8 byte length of one character. -/
def charUtf8Len (c : Char) : Nat :=
  if c.toNat < 0x80 then 1
  else if c.toNat < 0x800 then 2
  else if c.toNat < 0x10000 then 3
  else 4

/-- UTF-8 byte length of a character list. -/
def utf8Len (l : List Char) : Nat := (l.map charUtf8Len).sum

/-- Lower-case hex digit for a nibble. -/
def hexChar (n : Nat) : Char :=
  if n < 10 then Char.ofNat (48 + n) else Char.ofNat (87 + n)

/-- JSON escaping of one string character as `json.dumps` does with
`ensure_ascii=False`: `"` and `\` get a backslash, the control characters
with short escapes use them, other control characters use `\u00XX`, and
everything else is emitted raw. -/
def escapeChar (c : Char) : List Char :=
  if c = '"' then ['\\', '"']
  else if c = '\\' then ['\\', '\\']
  else if c = Char.ofNat 8 then ['\\', 'b']
  else if c = Char.ofNat 9 then ['\\', 't']
  else if c = Char.ofNat 10 then ['\\', 'n']
  else if c = Char.ofNat 12 then ['\\', 'f']
  else if c = Char.ofNat 13 then ['\\', 'r']
  else if c.toNat < 0x20 then
    '\\' :: 'u' :: '0' :: '0' ::
      [hexChar (c.toNat / 16), hexChar (c.toNat % 16)]
  else [c]

/-- JSON encoding of a string, quotes included. -/
def encodeString (s : String) : List Char :=
  '"' :: (s.data.map escapeChar).flatten ++ ['"']

/-- Decimal digit character. -/
def digitChar (n : Nat) : Char := Char.ofNat (48 + n)

/-- Decimal digits of a natural number (most significant first),
accumulator style; the fuel argument (any bound that is `> n` works, so the
recursion is structural and computations reduce definitionally) dominates
the number of division steps. -/
def natToDigitsAux : Nat → Nat → List Char → List Char
  | 0, _, acc => acc
  | fuel + 1, n, acc =>
    if n < 10 then digitChar n :: acc
    else natToDigitsAux fuel (n / 10) (digitChar (n % 10) :: acc)

/-- Decimal digits of a natural number, most significant first. -/
def natToDigits (n : Nat) : List Char := natToDigitsAux (n + 1) n []

/-- JSON (= Python `repr`) encoding of an integer. -/
def encodeInt (n : Int) : List Char :=
  if n < 0 then '-' :: natToDigits n.natAbs else natToDigits n.natAbs

/-- JSON encoding of one row value. -/
def encodeVal : PyVal → List Char
  | .null => 'n' :: 'u' :: 'l' :: ['l']
  | .bool true => 't' :: 'r' :: 'u' :: ['e']
  | .bool false => 'f' :: 'a' :: 'l' :: 's' :: ['e']
  | .int n => encodeInt n
  | .str s => encodeString s

/-- JSON encoding of a row's fields, comma separated. -/
def encodeFields : List (String × PyVal) → List Char
  | [] => []
  | [(k, v)] => encodeString k ++ ':' :: encodeVal v
  | (k, v) :: rest => encodeString k ++ ':' :: encodeVal v ++ ',' :: encodeFields rest

/-- JSON encoding of a row (a JSON object). -/
def encodeRow (r : Row) : List Char := '{' :: encodeFields r ++ ['}']

/-- JSON encoding of the row list (a JSON array). -/
def encodeRowsList : PageL → List Char
  | [] => []
  | [r] => encodeRow r
  | r :: rest => encodeRow r ++ ',' :: encodeRowsList rest

/-- The JSON text `json.dumps({"version": 1, "rows": rows},
separators=(",", ":"), ensure_ascii=False)`. -/
def encodePage (rows : PageL) : List Char :=
  ("\x7b\"version\":1,\"rows\":[".data) ++ encodeRowsList rows ++ [']', '}']

/-- `Page.serialize`: `none` models `PageFullError` (payload over
`PAGE_SIZE` bytes); otherwise the text right-padded with zero bytes to
exactly `PAGE_SIZE` bytes. -/
def pageSerialize (rows : PageL) : Option (List Char) :=
  let d := encodePage rows
  if utf8Len d > PAGE_SIZE then none
  else some (d ++ List.replicate (PAGE_SIZE - utf8Len d) nulChar)

/-- `bytes.rstrip(b"\x00")`: drop trailing zero bytes. -/
def rstripNul (l : List Char) : List Char :=
  (l.reverse.dropWhile (fun c => c = nulChar)).reverse

/-! The parser: each function consumes a prefix of the character list and
returns the parsed value with the unconsumed suffix, or `none` on a parse
error (Python `json.JSONDecodeError`). -/

/-- Expect a literal prefix. -/
def expectChars : List Char → List Char → Option (List Char)
  | [], input => some input
  | _ :: _, [] => none
  | e :: es, c :: cs => if c = e then expectChars es cs else none

/-- Is this a decimal digit character? -/
def isDigitChar (c : Char) : Bool := 48 ≤ c.toNat ∧ c.toNat ≤ 57

/-- Consume a maximal run of decimal digits, folding them into `acc`. -/
def parseDigits : List Char → Nat → Nat × List Char
  | [], acc => (acc, [])
  | c :: cs, acc =>
    if isDigitChar c then parseDigits cs (acc * 10 + (c.toNat - 48))
    else (acc, c :: cs)

/-- Parse a natural number (at least one digit required). -/
def parseNat : List Char → Option (Nat × List Char)
  | [] => none
  | c :: cs =>
    if isDigitChar c then some (parseDigits (c :: cs) 0) else none

/-- Parse a JSON integer (optional minus sign). -/
def parseInt : List Char → Option (Int × List Char)
  | [] => none
  | c :: cs =>
    if c = '-' then (parseNat cs).map (fun p => (-(p.1 : Int), p.2))
    else (parseNat (c :: cs)).map (fun p => ((p.1 : Int), p.2))

/-- Value of a hex digit character. -/
def hexVal (c : Char) : Option Nat :=
  if 48 ≤ c.toNat ∧ c.toNat ≤ 57 then some (c.toNat - 48)
  else if 97 ≤ c.toNat ∧ c.toNat ≤ 102 then some (c.toNat - 87)
  else if 65 ≤ c.toNat ∧ c.toNat ≤ 70 then some (c.toNat - 55)
  else none

/-- Parse a JSON string body (the opening quote already consumed),
handling the escapes the encoder can emit. -/
def parseStringBody : List Char → Option (List Char × List Char)
  | [] => none
  | c :: cs =>
    if c = '"' then some ([], cs)
    else if c = '\\' then
      match cs with
      | [] => none
      | e :: cs2 =>
        if e = 'u' then
          match cs2 with
          | h1 :: h2 :: h3 :: h4 :: cs3 => do
            let n1 ← hexVal h1
            let n2 ← hexVal h2
            let n3 ← hexVal h3
            let n4 ← hexVal h4
            let (s, rest) ← parseStringBody cs3
            pure (Char.ofNat (((n1 * 16 + n2) * 16 + n3) * 16 + n4) :: s, rest)
          | _ => none
        else do
          let d ←
            if e = '"' then some '"'
            else if e = '\\' then some '\\'
            else if e = '/' then some '/'
            else if e = 'b' then some (Char.ofNat 8)
            else if e = 't' then some (Char.ofNat 9)
            else if e = 'n' then some (Char.ofNat 10)
            else if e = 'f' then some (Char.ofNat 12)
            else if e = 'r' then some (Char.ofNat 13)
            else none
          let (s, rest) ← parseStringBody cs2
          pure (d :: s, rest)
    else do
      let (s, rest) ← parseStringBody cs
      pure (c :: s, rest)

/-- Parse a JSON string, opening quote included. -/
def parseString : List Char → Option (String × List Char)
  | [] => none
  | c :: cs =>
    if c = '"' then (parseStringBody cs).map (fun p => (String.mk p.1, p.2))
    else none

/-- Parse a scalar JSON value (the only values rows contain). -/
def parseVal (input : List Char) : Option (PyVal × List Char) :=
  match input with
  | [] => none
  | c :: _ =>
    if c = 'n' then (expectChars "null".data input).map (fun r => (.null, r))
    else if c = 't' then (expectChars "true".data input).map (fun r => (.bool true, r))
    else if c = 'f' then (expectChars "false".data input).map (fun r => (.bool false, r))
    else if c = '"' then (parseString input).map (fun p => (.str p.1, p.2))
    else (parseInt input).map (fun p => (.int p.1, p.2))

/-- Parse the fields of a JSON object after its `{`, `fuel` bounding the
number of fields (a trailing comma before `}` is a parse error, as in
`json.loads`). -/
def parseFields : Nat → List Char → Option (Row × List Char)
  | 0, _ => none
  | fuel + 1, input =>
    match input with
    | [] => none
    | c :: cs =>
      if c = '}' then some ([], cs)
      else
        (parseString (c :: cs)).bind fun p1 =>
        (expectChars [':'] p1.2).bind fun r2 =>
        (parseVal r2).bind fun p2 =>
        match p2.2 with
        | [] => none
        | c3 :: r4 =>
          if c3 = ',' then
            match r4 with
            | [] => none
            | c4 :: cs4 =>
              if c4 = '}' then none
              else
                (parseFields fuel (c4 :: cs4)).bind fun p3 =>
                some ((p1.1, p2.1) :: p3.1, p3.2)
          else if c3 = '}' then some ([(p1.1, p2.1)], r4)
          else none

/-- Parse a JSON object (a row). -/
def parseRow (fuel : Nat) : List Char → Option (Row × List Char)
  | [] => none
  | c :: cs => if c = '{' then parseFields fuel cs else none

/-- Parse the elements of the rows array after its `[`, `fuel` bounding the
number of rows (a trailing comma before `]` is a parse error). -/
def parseRowsItems : Nat → List Char → Option (PageL × List Char)
  | 0, _ => none
  | fuel + 1, input =>
    match input with
    | [] => none
    | c :: cs =>
      if c = ']' then some ([], cs)
      else
        (parseRow (fuel + 1) (c :: cs)).bind fun p1 =>
        match p1.2 with
        | [] => none
        | c2 :: r2 =>
          if c2 = ',' then
            match r2 with
            | [] => none
            | c3 :: cs3 =>
              if c3 = ']' then none
              else
                (parseRowsItems fuel (c3 :: cs3)).bind fun p2 =>
                some (p1.1 :: p2.1, p2.2)
          else if c2 = ']' then some ([p1.1], r2)
          else none

/-- Parse the page envelope `{"version":…,"rows":[…]}` and return the rows
(`json.loads` followed by `obj.get("rows", [])`), requiring the whole text
to be consumed. -/
def parsePage (text : List Char) : Option PageL :=
  (expectChars "\x7b\"version\":".data text).bind fun r1 =>
  (parseNat r1).bind fun p1 =>
  (expectChars ",\"rows\":[".data p1.2).bind fun r3 =>
  (parseRowsItems (r3.length + 1) r3).bind fun p2 =>
  (expectChars ['}'] p2.2).bind fun r5 =>
  if r5 = [] then some p2.1 else none

/-- `Page.deserialize`: strip trailing zero bytes; empty text gives the
empty page; otherwise JSON-parse the envelope. -/
def pageDeserialize (data : List Char) : Option PageL :=
  let text := rstripNul data
  if text = [] then some []
  else parsePage text

/-- `Page.iter_live_rows`: rows whose `"__deleted__"` value is not truthy. -/
def truthy : PyVal → Bool
  | .null => false
  | .bool b => b
  | .int n => n ≠ 0
  | .str s => s ≠ ""

/-- Is this row tombstoned (`row.get("__deleted__")` truthy)? -/
def isDeleted (r : Row) : Bool := truthy (rowGet r "__deleted__")

/-- `Page.iter_live_rows`. -/
def iterLiveRows (p : PageL) : List Row := p.filter (fun r => !isDeleted r)

/-- `Page.mark_deleted(predicate)`: set the tombstone on live rows matching
the predicate, returning the new rows and the count marked. -/
def markDeleted (pred : Row → Bool) : PageL → PageL × Nat
  | [] => ([], 0)
  | r :: rest =>
    let acc := markDeleted pred rest
    if !isDeleted r && pred r then
      ((rowSet r "__deleted__" (.bool true)) :: acc.1, acc.2 + 1)
    else (r :: acc.1, acc.2)

/-- `Page.try_append_row`: trial-serialize with the row appended; on
overflow roll back (`none` here means the page kept its old rows). -/
def tryAppendRow (p : PageL) (r : Row) : Option PageL :=
  match pageSerialize (p ++ [r]) with
  | some _ => some (p ++ [r])
  | none => none

example : encodePage [] = "\x7b\"version\":1,\"rows\":[]\x7d".data := rfl
example :
    encodePage [[("id", .int 1), ("name", .str "A")]] =
      "\x7b\"version\":1,\"rows\":[\x7b\"id\":1,\"name\":\"A\"\x7d]\x7d".data := rfl
example : parsePage "\x7b\"version\":1,\"rows\":[]\x7d".data = some [] := rfl
example :
    parsePage "\x7b\"version\":1,\"rows\":[\x7b\"id\":1,\"name\":\"A\"\x7d,\x7b\"id\":-2,\"__deleted__\":true\x7d]\x7d".data =
      some [[("id", .int 1), ("name", .str "A")],
            [("id", .int (-2)), ("__deleted__", .bool true)]] := rfl
example : pageDeserialize (List.replicate 4096 nulChar) = some [] := rfl

/-! ### DiskManager (`src/storage/disk_manager.py`) and
BufferManager (`src/storage/buffer_manager.py`)

Each table is one file, a list of pages.  Above the serialization layer
(whose fidelity is established separately by the round-trip theorem for
`pageSerialize`/`pageDeserialize`), a stored page is represented by its row
list; a freshly allocated all-zero page deserializes to the empty row list.
The statistics log files under `logs/` are observability-only side effects
and are not modelled. -/

/-- The disk: per-table files, each a list of pages. -/
abbrev Disk := List (String × List PageL)

/-- The pages of a table's file (`[]` when the file does not exist). -/
def diskFile (d : Disk) (t : String) : List PageL :=
  match d.find? (fun p => p.1 == t) with
  | some p => p.2
  | none => []

/-- Replace (or create) a table's file. -/
def diskSetFile : Disk → String → List PageL → Disk
  | [], t, file => [(t, file)]
  | p :: rest, t, file =>
    if p.1 == t then (p.1, file) :: rest else p :: diskSetFile rest t file

/-- `DiskManager.get_num_pages`: file size divided by `PAGE_SIZE`. -/
def diskNumPages (d : Disk) (t : String) : Nat := (diskFile d t).length

/-- `DiskManager.read_page`: `none` models the out-of-bounds `IOError`. -/
def diskRead (d : Disk) (t : String) (pid : Nat) : Option PageL :=
  (diskFile d t).get? pid

/-- `DiskManager.write_page`: seek to `pid × PAGE_SIZE` and write; a seek
past the end leaves a zero gap, i.e. pages that deserialize empty. -/
def diskWrite (d : Disk) (t : String) (pid : Nat) (p : PageL) : Disk :=
  let file := diskFile d t
  if pid < file.length then diskSetFile d t (file.set pid p)
  else diskSetFile d t ((file ++ List.replicate (pid - file.length) []) ++ [p])

/-- `DiskManager.allocate_page`: extend the file by one zero-filled block
and return the new page id (= the old page count). -/
def diskAlloc (d : Disk) (t : String) : Disk × Nat :=
  (diskSetFile d t (diskFile d t ++ [[]]), (diskFile d t).length)

/-- A buffer-pool frame: a page plus its dirty flag. -/
structure Frame where
  page : PageL
  dirty : Bool
deriving DecidableEq, Repr

/-- A cache key `(table, page_id)`. -/
abbrev PageKey := String × Nat

/-- The buffer manager's state: the disk below it, the insertion-ordered
cache (front = least recently used, as in the `OrderedDict`), the capacity,
and the hit/miss/eviction counters. -/
structure BufState where
  disk : Disk
  cache : List (PageKey × Frame)
  capacity : Nat
  hitCount : Nat := 0
  missCount : Nat := 0
  evictCount : Nat := 0
deriving Repr

/-- Cache lookup. -/
def cacheFind (cache : List (PageKey × Frame)) (key : PageKey) : Option Frame :=
  match cache.find? (fun p => p.1 == key) with
  | some p => some p.2
  | none => none

/-- Remove a key from the cache. -/
def cacheErase (cache : List (PageKey × Frame)) (key : PageKey) :
    List (PageKey × Frame) :=
  cache.filter (fun p => p.1 != key)

/-- Update the frame stored under a key (keeping its position), when
present. -/
def cacheModify (cache : List (PageKey × Frame)) (key : PageKey)
    (f : Frame → Frame) : List (PageKey × Frame) :=
  cache.map (fun p => if p.1 == key then (p.1, f p.2) else p)

/-- `BufferManager._evict_if_needed`: while over capacity, pop the least
recently used entry, writing it back first when dirty.  Returns the new
disk, the remaining cache and the evicted entries in order (the eviction
log, which the source also records). -/
def evictLoop (capacity : Nat) (disk : Disk) :
    List (PageKey × Frame) → List (PageKey × Frame) →
    Disk × List (PageKey × Frame) × List (PageKey × Frame)
  | [], log => (disk, [], log)
  | (key, frame) :: rest, log =>
    if ((key, frame) :: rest).length > capacity then
      let disk' := if frame.dirty then diskWrite disk key.1 key.2 frame.page else disk
      evictLoop capacity disk' rest (log ++ [(key, frame)])
    else (disk, (key, frame) :: rest, log)

/-- Run eviction on a buffer state, returning the state and eviction log. -/
def evictIfNeeded (s : BufState) : BufState × List (PageKey × Frame) :=
  ({ s with disk := (evictLoop s.capacity s.disk s.cache []).1,
            cache := (evictLoop s.capacity s.disk s.cache []).2.1,
            evictCount :=
              s.evictCount + (evictLoop s.capacity s.disk s.cache []).2.2.length },
   (evictLoop s.capacity s.disk s.cache []).2.2)

/-- `BufferManager.get_page`: on a hit, move the key to most recently used
and return its page; on a miss, read from disk (`none` on I/O failure),
insert a clean frame, and evict if needed.  Returns the page, the new
state, and the eviction log. -/
def getPage (s : BufState) (t : String) (pid : Nat) :
    Option (PageL × BufState × List (PageKey × Frame)) :=
  match cacheFind s.cache (t, pid) with
  | some frame =>
    some (frame.page,
      { s with hitCount := s.hitCount + 1,
               cache := cacheErase s.cache (t, pid) ++ [((t, pid), frame)] }, [])
  | none =>
    match diskRead s.disk t pid with
    | none => none
    | some page =>
      some (page,
        (evictIfNeeded (BufState.mk s.disk (s.cache ++ [((t, pid), ⟨page, false⟩)])
          s.capacity s.hitCount (s.missCount + 1) s.evictCount)).1,
        (evictIfNeeded (BufState.mk s.disk (s.cache ++ [((t, pid), ⟨page, false⟩)])
          s.capacity s.hitCount (s.missCount + 1) s.evictCount)).2)

/-- `BufferManager.new_page`: allocate on disk, insert a blank dirty page,
evict if needed. -/
def newPage (s : BufState) (t : String) :
    Nat × PageL × BufState × List (PageKey × Frame) :=
  ((diskAlloc s.disk t).2, [],
   (evictIfNeeded (BufState.mk (diskAlloc s.disk t).1
     (s.cache ++ [((t, (diskAlloc s.disk t).2), ⟨[], true⟩)])
     s.capacity s.hitCount s.missCount s.evictCount)).1,
   (evictIfNeeded (BufState.mk (diskAlloc s.disk t).1
     (s.cache ++ [((t, (diskAlloc s.disk t).2), ⟨[], true⟩)])
     s.capacity s.hitCount s.missCount s.evictCount)).2)

/-- `BufferManager.mark_dirty`: set the dirty flag on a resident frame. -/
def markDirty (s : BufState) (t : String) (pid : Nat) : BufState :=
  { s with cache := cacheModify s.cache (t, pid) (fun f => { f with dirty := true }) }

/-- `BufferManager.flush_page`: write back one resident dirty frame and
clear its flag. -/
def flushPage (s : BufState) (t : String) (pid : Nat) : BufState :=
  match cacheFind s.cache (t, pid) with
  | some frame =>
    if frame.dirty then
      { s with disk := diskWrite s.disk t pid frame.page,
               cache := cacheModify s.cache (t, pid) (fun f => { f with dirty := false }) }
    else s
  | none => s

/-- `BufferManager.flush_all`: write back every dirty frame in order and
clear the flags. -/
def flushAll (s : BufState) : BufState :=
  { s with
    disk := s.cache.foldl (fun d p =>
      if p.2.dirty then diskWrite d p.1.1 p.1.2 p.2.page else d) s.disk,
    cache := s.cache.map (fun p => (p.1, { p.2 with dirty := false })) }

/-- One buffer-pool operation. -/
inductive BufOp where
  | getPage (t : String) (pid : Nat)
  | newPage (t : String)
  | markDirty (t : String) (pid : Nat)
  | flushPage (t : String) (pid : Nat)
  | flushAll
deriving Repr

/-- Apply one buffer-pool operation, returning the new state and the
eviction log (`none` only for a `get_page` whose disk read fails, which
raises before touching the cache). -/
def applyBufOp (s : BufState) : BufOp → Option (BufState × List (PageKey × Frame))
  | .getPage t pid => (getPage s t pid).map (fun p => (p.2.1, p.2.2))
  | .newPage t => some ((newPage s t).2.2.1, (newPage s t).2.2.2)
  | .markDirty t pid => some (markDirty s t pid, [])
  | .flushPage t pid => some (flushPage s t pid, [])
  | .flushAll => some (flushAll s, [])

/-! ### TableStorage (`src/storage/table.py`) -/

/-- The page and state aliasing of the CPython source: mutating a page
object returned by `get_page` mutates the cached frame when (and only when)
the frame is still resident; this helper installs the mutated page. -/
def cacheSetPage (s : BufState) (t : String) (pid : Nat) (p : PageL) : BufState :=
  { s with cache := cacheModify s.cache (t, pid) (fun f => { f with page := p }) }

/-- The shared tail of `TableStorage.append_row`: try appending to the
given page; on overflow allocate a fresh page (whose row list is empty) and
retry there; `none` models the `assert ok` failing.  The affected page is
installed in the cache (the CPython code mutates the aliased page object)
and marked dirty. -/
def appendRowCore (t : String) (row : Row) (pid : Nat) (page : PageL)
    (s1 : BufState) : Option BufState :=
  match tryAppendRow page row with
  | some newRows =>
    some (markDirty (cacheSetPage s1 t pid newRows) t pid)
  | none =>
    match tryAppendRow [] row with
    | some newRows =>
      some (markDirty (cacheSetPage (newPage s1 t).2.2.1 t (newPage s1 t).1 newRows)
        t (newPage s1 t).1)
    | none => none

/-- `TableStorage.append_row`: reuse the last page if the file has one,
else allocate a first page, then run the append-with-retry tail. -/
def appendRow (s : BufState) (t : String) (row : Row) : Option BufState :=
  if diskNumPages s.disk t = 0 then
    appendRowCore t row (newPage s t).1 (newPage s t).2.1 (newPage s t).2.2.1
  else
    (getPage s t (diskNumPages s.disk t - 1)).bind (fun r =>
      appendRowCore t row (diskNumPages s.disk t - 1) r.1 r.2.1)

/-- The page-scan loop of `TableStorage.seq_scan`: read pages `0,…,n−1`
through the buffer pool, threading the state, and collect live rows. -/
def seqScanLoop (s : BufState) (t : String) :
    Nat → Nat → Option (List Row × BufState)
  | _, 0 => some ([], s)
  | pid, remaining + 1 => do
    let (page, s', _) ← getPage s t pid
    let (rows, s'') ← seqScanLoop s' t (pid + 1) remaining
    some (iterLiveRows page ++ rows, s'')

/-- `TableStorage.seq_scan`: live rows of every page in page-id order. -/
def tableSeqScan (s : BufState) (t : String) : Option (List Row × BufState) :=
  seqScanLoop s t 0 (diskNumPages s.disk t)

/-- The body of `TableStorage.update_where`'s per-page loop
(`src/storage/table.py` lines 51–54): apply `update_func` to every live row
matching the predicate, count them, and leave every other row — in
particular every tombstoned row — untouched in place. -/
def updatePageRows (updateFunc : Row → Row) (pred : Row → Bool) :
    PageL → PageL × Nat
  | [] => ([], 0)
  | r :: rest =>
    let acc := updatePageRows updateFunc pred rest
    if !isDeleted r && pred r then (updateFunc r :: acc.1, acc.2 + 1)
    else (r :: acc.1, acc.2)

/-! ### Planner (`src/compiler/planner.py`) and the SELECT pipeline
(`src/execution/executor.py`, `src/execution/operators.py`)

The fragment needed for the pushdown claim: `SELECT *` with joins and a
`WHERE` clause (no grouping, ordering or aggregates, so `_plan_select`'s
corresponding branches are not taken and no `Project` node is emitted).
The executor instantiates operators over in-memory table contents (a
sequential scan's row list); `_build_pipeline` never passes
`left_table_alias`/`right_table_alias` (the planner puts no such args in
`Join` nodes), so `Join` merges rows without alias prefixes. -/

/-- A comparison leaf `Comparison(left, op, right)`; `right` is an integer
or string literal or a (possibly qualified) column-name string. -/
structure Comparison where
  left : String
  op : String
  right : PyVal
deriving DecidableEq, Repr

/-- A `WHERE` condition: a tree of comparisons under `AND`/`OR`. -/
inductive Condition where
  | cmp (c : Comparison) : Condition
  | logic (op : String) (l r : Condition) : Condition
deriving DecidableEq, Repr

/-- A `JOIN` clause of the AST. -/
structure JoinClause where
  table_name : String
  join_type : String
  on_condition : Comparison
deriving DecidableEq, Repr

/-- The SELECT fragment: `SELECT * FROM table …joins… WHERE …`. -/
structure SelectStmt where
  table_name : String
  joins : List JoinClause
  whereCond : Option Condition
deriving DecidableEq, Repr

/-- A logical plan node (the node kinds `_plan_select` emits for this
fragment). -/
inductive Plan where
  | seqScan (table : String) : Plan
  | filter (predicate : Comparison) (child : Plan) : Plan
  | join (join_type : String) (on_condition : Comparison) (l r : Plan) : Plan
deriving DecidableEq, Repr

/-- `Planner._flatten_condition`: list all comparison leaves —
intentionally identical for `AND` and `OR`. -/
def flattenCondition : Condition → List Comparison
  | .cmp c => [c]
  | .logic _ l r => flattenCondition l ++ flattenCondition r

/-- `Planner._predicate_involves_table`: the source always returns `True`
("simplified implementation"). -/
def predicateInvolvesTable (_ : Comparison) (_ : String) : Bool := true

/-- `Planner._add_filters`: stack one `Filter` per predicate. -/
def addFilters (node : Plan) (predicates : List Comparison) : Plan :=
  predicates.foldl (fun n p => .filter p n) node

/-- The `JOIN` loop of `Planner._plan_select`: for each join, push the `ON`
condition plus every remaining `WHERE` predicate that "involves" the joined
table (i.e. all of them) onto the joined table's scan, and remove the moved
predicates from the remaining list. -/
def planJoins (node : Plan) (wherePreds : List Comparison) :
    List JoinClause → Plan × List Comparison
  | [] => (node, wherePreds)
  | j :: rest =>
    let moved := wherePreds.filter (fun p => predicateInvolvesTable p j.table_name)
    let remaining := wherePreds.filter (fun p => !predicateInvolvesTable p j.table_name)
    let joinScan := addFilters (.seqScan j.table_name) (j.on_condition :: moved)
    planJoins (.join j.join_type j.on_condition node joinScan) remaining rest

/-- `Planner._plan_select` for the `SELECT *` fragment: scan, flatten the
`WHERE`, process joins with pushdown, then wrap any remaining predicates as
`Filter`s above. -/
def planSelect (stmt : SelectStmt) : Plan :=
  let wherePreds := match stmt.whereCond with
    | some c => flattenCondition c
    | none => []
  let (node, remaining) := planJoins (.seqScan stmt.table_name) wherePreds stmt.joins
  addFilters node remaining

/-- Table contents the executor scans: table name to row list. -/
abbrev TEnv := List (String × List Row)

/-- A `SeqScan` operator's output for a table. -/
def envRows (env : TEnv) (t : String) : List Row :=
  match env.find? (fun p => p.1 == t) with
  | some p => p.2
  | none => []

/-- `dict.update`-style merge of two rows (`Join._merge_rows_with_aliases`
with both aliases `None`, as built by `Executor._build_pipeline` from the
planner's `Join` nodes). -/
def mergeRows (l r : Row) : Row :=
  r.foldl (fun acc p => rowSet acc p.1 p.2) l

/-- `Join._matches_condition`: strip qualifiers from both operand column
references, look the left one up in the left row and the right one up in
the right row (missing ⇒ `None`), and compare; order comparisons can raise
`TypeError`, a non-string operand raises on `'.' in column_ref`, and an
unknown operator raises `ValueError`. -/
def matchesCondition (leftRow rightRow : Row) (c : Comparison) :
    Except String Bool := do
  let rightName ←
    match c.right with
    | .str s => .ok (extractColumnName s)
    | _ => .error "TypeError: argument of type is not iterable"
  let leftVal := rowGet leftRow (extractColumnName c.left)
  let rightVal := rowGet rightRow rightName
  if c.op = "=" then .ok (pyEq leftVal rightVal)
  else if c.op = "<>" ∨ c.op = "!=" then .ok (!pyEq leftVal rightVal)
  else if c.op = "<" then
    match pyLt leftVal rightVal with
    | some b => .ok b
    | none => .error "TypeError"
  else if c.op = ">" then
    match pyLt rightVal leftVal with
    | some b => .ok b
    | none => .error "TypeError"
  else if c.op = "<=" then
    match pyLe leftVal rightVal with
    | some b => .ok b
    | none => .error "TypeError"
  else if c.op = ">=" then
    match pyLe rightVal leftVal with
    | some b => .ok b
    | none => .error "TypeError"
  else .error "ValueError: unsupported comparison operator"

/-- The right-row loop of `Join.execute` for one left row: the merged rows
of the matches (in right-scan order), and whether any right row matched. -/
def joinOneLeft (cond : Comparison) (leftRow : Row) :
    List Row → Except String (List Row × Bool)
  | [] => .ok ([], false)
  | r :: rs => do
    let m ← matchesCondition leftRow r cond
    let (outs, matched) ← joinOneLeft cond leftRow rs
    if m then .ok (mergeRows leftRow r :: outs, true)
    else .ok (outs, matched)

/-- The null-filled right row a `LEFT` join emits for an unmatched left
row: the first right row's keys, all mapped to `None` (empty when the right
side is empty). -/
def nullFillRight : List Row → Row
  | [] => []
  | r :: _ => r.map (fun p => (p.1, PyVal.null))

/-- `Join.execute`: materialize the right child, then left-major nested
loop; `LEFT` adds the null-filled row for unmatched left rows (`INNER`
omits them; `RIGHT`/`OUTER` have no special branch in the source). -/
def joinExecute (joinType : String) (cond : Comparison)
    (rightRows : List Row) : List Row → Except String (List Row)
  | [] => .ok []
  | l :: ls => do
    let (outs, matched) ← joinOneLeft cond l rightRows
    let rest ← joinExecute joinType cond rightRows ls
    if joinType = "LEFT" ∧ !matched then
      .ok (outs ++ [mergeRows l (nullFillRight rightRows)] ++ rest)
    else
      .ok (outs ++ rest)

/-- `Filter.execute`: keep the rows on which the predicate evaluates to
true; a raising evaluation aborts the statement. -/
def filterRows (c : Comparison) : List Row → Except String (List Row)
  | [] => .ok []
  | r :: rs => do
    let b ← evalPredicate r c.left c.op c.right
    let rest ← filterRows c rs
    .ok (if b then r :: rest else rest)

/-- Evaluate a plan tree (`Executor._build_pipeline` + the operators'
`execute`) over table contents. -/
def execPlan (env : TEnv) : Plan → Except String (List Row)
  | .seqScan t => .ok (envRows env t)
  | .filter c p => do filterRows c (← execPlan env p)
  | .join jt cond l r => do
    let leftRows ← execPlan env l
    let rightRows ← execPlan env r
    joinExecute jt cond rightRows leftRows

/-- Python-style short-circuit evaluation of a `WHERE` condition tree
(`AND`/`OR` preserved), with `eval_predicate` at the leaves. -/
def evalCondition (row : Row) : Condition → Except String Bool
  | .cmp c => evalPredicate row c.left c.op c.right
  | .logic op l r => do
    let a ← evalCondition row l
    if op = "AND" then
      if a then evalCondition row r else .ok false
    else if op = "OR" then
      if a then .ok true else evalCondition row r
    else .error "unsupported logical operator"

/-- Filter a row list by a full condition tree. -/
def filterByCondition (c : Condition) : List Row → Except String (List Row)
  | [] => .ok []
  | r :: rs => do
    let b ← evalCondition r c
    let rest ← filterByCondition c rs
    .ok (if b then r :: rest else rest)

/-- Modelled from the spec (§4.4 "must preserve overall predicate semantics
by placing any predicate not cleanly pushable above the join", §4.5 Join):
the reference result of a `SELECT *` with joins and `WHERE` — the nested
loop join of all join clauses, then the rows of that join result that
satisfy the original `WHERE` condition. -/
def specJoinAll (env : TEnv) (base : List Row) :
    List JoinClause → Except String (List Row)
  | [] => .ok base
  | j :: rest => do
    let rows ← joinExecute j.join_type j.on_condition (envRows env j.table_name) base
    specJoinAll env rows rest

/-- Modelled from the spec: the join result filtered by the `WHERE`
condition — what the claim says the planned tree must compute. -/
def specSelectResult (env : TEnv) (stmt : SelectStmt) : Except String (List Row) := do
  let joined ← specJoinAll env (envRows env stmt.table_name) stmt.joins
  match stmt.whereCond with
  | some c => filterByCondition c joined
  | none => .ok joined

/-- Concrete table contents exhibiting the pushdown unsoundness:
`s(sid INT, id INT)` with two rows and `c(id INT, name TEXT)` with the
matching join keys. -/
def c4env : TEnv :=
  [("s", [[("sid", .int 1), ("id", .int 10)], [("sid", .int 2), ("id", .int 20)]]),
   ("c", [[("id", .int 10), ("name", .str "x")], [("id", .int 20), ("name", .str "y")]])]

/-- The statement `SELECT * FROM s JOIN c ON s.id = c.id WHERE sid = 1`. -/
def c4stmt : SelectStmt :=
  { table_name := "s",
    joins := [{ table_name := "c", join_type := "INNER",
                on_condition := { left := "s.id", op := "=", right := .str "c.id" } }],
    whereCond := some (.cmp { left := "sid", op := "=", right := .int 1 }) }

/-! ## Theorems

General-purpose lemmas about the embedded definitions come first; the
claim theorems follow, one per claim. -/

/-- `diskFile` on a cons whose head matches. -/
theorem diskFile_cons_pos (p : String × List PageL) (rest : Disk) (t : String)
    (h : (p.1 == t) = true) : diskFile (p :: rest) t = p.2 := by
  simp [diskFile, List.find?_cons, h]

/-- `diskFile` on a cons whose head does not match. -/
theorem diskFile_cons_neg (p : String × List PageL) (rest : Disk) (t : String)
    (h : (p.1 == t) = false) : diskFile (p :: rest) t = diskFile rest t := by
  simp [diskFile, List.find?_cons, h]

/-- Reading back the file just written by `diskSetFile`. -/
theorem diskFile_setFile_self (d : Disk) (t : String) (file : List PageL) :
    diskFile (diskSetFile d t file) t = file := by
  induction d with
  | nil => simp [diskSetFile, diskFile]
  | cons p rest ih =>
    by_cases hp : p.1 == t
    · simp [diskSetFile, diskFile, hp, List.find?_cons]
    · rw [diskSetFile, if_neg (by simp [hp]), diskFile_cons_neg _ _ _ (by simpa using hp)]
      exact ih

/-- `diskSetFile` leaves every other table's file unchanged. -/
theorem diskFile_setFile_other (d : Disk) (t t' : String) (file : List PageL)
    (h : t' ≠ t) : diskFile (diskSetFile d t file) t' = diskFile d t' := by
  induction d with
  | nil =>
    rw [diskSetFile, diskFile_cons_neg _ _ _ (by simp [Ne.symm h])]
  | cons p rest ih =>
    by_cases hp : p.1 == t
    · have hp' : (p.1 == t') = false := by
        rw [beq_iff_eq] at hp
        simp [hp, Ne.symm h]
      rw [diskSetFile, if_pos (by simpa using hp),
        diskFile_cons_neg _ _ _ (by simpa using hp'), diskFile_cons_neg _ _ _ hp']
    · rw [diskSetFile, if_neg (by simp [hp])]
      by_cases hq : p.1 == t'
      · rw [diskFile_cons_pos _ _ _ (by simpa using hq),
          diskFile_cons_pos _ _ _ (by simpa using hq)]
      · rw [diskFile_cons_neg _ _ _ (by simpa using hq),
          diskFile_cons_neg _ _ _ (by simpa using hq)]
        exact ih

/-- Unfolding `evalPredicate` at each operator literal. -/
theorem evalPredicate_eq_def (row : Row) (l : String) (r : PyVal) :
    evalPredicate row l "=" r = .ok (pyEq (resolveLeft row l) (resolveRight row r)) := rfl

/-- Unfolding `evalPredicate` at `<>`. -/
theorem evalPredicate_ne_def (row : Row) (l : String) (r : PyVal) :
    evalPredicate row l "<>" r = .ok (!pyEq (resolveLeft row l) (resolveRight row r)) := rfl

/-- Unfolding `evalPredicate` at `!=`. -/
theorem evalPredicate_ne2_def (row : Row) (l : String) (r : PyVal) :
    evalPredicate row l "!=" r = .ok (!pyEq (resolveLeft row l) (resolveRight row r)) := rfl

/-- Unfolding `evalPredicate` at `<`. -/
theorem evalPredicate_lt_def (row : Row) (l : String) (r : PyVal) :
    evalPredicate row l "<" r =
      (match pyLt (resolveLeft row l) (resolveRight row r) with
       | some b => .ok b
       | none => .error "TypeError") := rfl

/-- Unfolding `evalPredicate` at `>`. -/
theorem evalPredicate_gt_def (row : Row) (l : String) (r : PyVal) :
    evalPredicate row l ">" r =
      (match pyLt (resolveRight row r) (resolveLeft row l) with
       | some b => .ok b
       | none => .error "TypeError") := rfl

/-- Unfolding `evalPredicate` at `<=`. -/
theorem evalPredicate_le_def (row : Row) (l : String) (r : PyVal) :
    evalPredicate row l "<=" r =
      (match pyLe (resolveLeft row l) (resolveRight row r) with
       | some b => .ok b
       | none => .error "TypeError") := rfl

/-- Unfolding `evalPredicate` at `>=`. -/
theorem evalPredicate_ge_def (row : Row) (l : String) (r : PyVal) :
    evalPredicate row l ">=" r =
      (match pyLe (resolveRight row r) (resolveLeft row l) with
       | some b => .ok b
       | none => .error "TypeError") := rfl

/-- C1 (counterexample): on a row without column `a`, the left operand of
`a < 5` resolves to `None` and the comparison raises `TypeError` — it does
not evaluate to false, so predicate evaluation can raise on a null
operand. -/
theorem evalPredicate_null_order_raises_cex :
    evalPredicate [] "a" "<" (.int 5) = .error "TypeError" ∧
    evalPredicate [] "a" "<" (.int 5) ≠ .ok false := by
  refine ⟨rfl, fun h => ?_⟩
  rw [show evalPredicate [] "a" "<" (.int 5) = .error "TypeError" from rfl] at h
  exact Except.noConfusion h

/-- C1 (amended): how `eval_predicate` actually treats null and mixed
integer/string operands.  A left-operand lookup miss resolves to null; with
exactly one null operand `=` is false and `<>`/`!=` are true; with two null
operands `=` is true; with an integer operand against a string operand `=`
is false and `<>` is true; and in all of these cases the four order
comparisons raise `TypeError` instead of evaluating to false. -/
theorem evalPredicate_null_mix_semantics
    (row : Row) (l : String) (r : PyVal) (v w : PyVal)
    (hv : resolveLeft row l = v) (hw : resolveRight row r = w) :
    (rowHasKey row (extractColumnName l) = false → v = .null) ∧
    ((v = .null ∧ w ≠ .null) ∨ (v ≠ .null ∧ w = .null) →
      evalPredicate row l "=" r = .ok false ∧
      evalPredicate row l "<>" r = .ok true ∧
      evalPredicate row l "!=" r = .ok true) ∧
    (v = .null ∧ w = .null →
      evalPredicate row l "=" r = .ok true ∧
      evalPredicate row l "<>" r = .ok false) ∧
    ((∃ m s, v = .int m ∧ w = .str s) ∨ (∃ m s, v = .str s ∧ w = .int m) →
      evalPredicate row l "=" r = .ok false ∧
      evalPredicate row l "<>" r = .ok true) ∧
    ((v = .null ∨ w = .null ∨
      (∃ m s, v = .int m ∧ w = .str s) ∨ (∃ m s, v = .str s ∧ w = .int m)) →
      evalPredicate row l "<" r = .error "TypeError" ∧
      evalPredicate row l ">" r = .error "TypeError" ∧
      evalPredicate row l "<=" r = .error "TypeError" ∧
      evalPredicate row l ">=" r = .error "TypeError") := by
  have hpyEq_null : ∀ x : PyVal, x ≠ .null → pyEq .null x = false := by
    intro x hx; cases x <;> simp_all [pyEq, asNum]
  have hpyEq_null' : ∀ x : PyVal, x ≠ .null → pyEq x .null = false := by
    intro x hx; cases x <;> simp_all [pyEq, asNum]
  have hlt_null : ∀ x : PyVal, pyLt .null x = none := by
    intro x; cases x <;> simp [pyLt, asNum]
  have hlt_null' : ∀ x : PyVal, pyLt x .null = none := by
    intro x; cases x <;> simp [pyLt, asNum]
  have hle_null : ∀ x : PyVal, pyLe .null x = none := by
    intro x; cases x <;> simp [pyLe, asNum]
  have hle_null' : ∀ x : PyVal, pyLe x .null = none := by
    intro x; cases x <;> simp [pyLe, asNum]
  have hlt_mix : ∀ m s, pyLt (PyVal.int m) (PyVal.str s) = none ∧
      pyLt (PyVal.str s) (PyVal.int m) = none ∧
      pyLe (PyVal.int m) (PyVal.str s) = none ∧
      pyLe (PyVal.str s) (PyVal.int m) = none := by
    intro m s; refine ⟨?_, ?_, ?_, ?_⟩ <;> simp [pyLt, pyLe, asNum]
  refine ⟨?_, ?_, ?_, ?_, ?_⟩
  · intro hmiss
    simp only [resolveLeft, rowGet] at hv
    rw [List.find?_eq_none.mpr] at hv
    · exact hv.symm
    · intro p hp hbeq
      have : rowHasKey row (extractColumnName l) = true :=
        List.any_eq_true.mpr ⟨p, hp, hbeq⟩
      rw [hmiss] at this; exact Bool.noConfusion this
  · rintro (⟨h1, h2⟩ | ⟨h1, h2⟩)
    · rw [evalPredicate_eq_def, evalPredicate_ne_def, evalPredicate_ne2_def, hv, hw, h1,
        hpyEq_null _ h2]
      exact ⟨rfl, rfl, rfl⟩
    · rw [evalPredicate_eq_def, evalPredicate_ne_def, evalPredicate_ne2_def, hv, hw, h2,
        hpyEq_null' _ h1]
      exact ⟨rfl, rfl, rfl⟩
  · rintro ⟨h1, h2⟩
    rw [evalPredicate_eq_def, evalPredicate_ne_def, hv, hw, h1, h2]
    exact ⟨rfl, rfl⟩
  · rintro (⟨m, s, h1, h2⟩ | ⟨m, s, h1, h2⟩) <;>
      rw [evalPredicate_eq_def, evalPredicate_ne_def, hv, hw, h1, h2] <;>
      exact ⟨by simp [pyEq, asNum], by simp [pyEq, asNum]⟩
  · rintro (h1 | h2 | ⟨m, s, h1, h2⟩ | ⟨m, s, h1, h2⟩) <;>
      rw [evalPredicate_lt_def, evalPredicate_gt_def, evalPredicate_le_def,
        evalPredicate_ge_def, hv, hw] <;>
      simp_all [hlt_null, hlt_null', hle_null, hle_null', hlt_mix]

/-- C1 (witness): on the row `{a: 1}` against the string literal `'x'`, the
amended theorem yields that `a = 'x'` is false while `a < 'x'` raises. -/
theorem evalPredicate_null_mix_semantics_witness :
    evalPredicate [("a", PyVal.int 1)] "a" "=" (.str "x") = .ok false ∧
    evalPredicate [("a", PyVal.int 1)] "a" "<" (.str "x") = .error "TypeError" := by
  have h := evalPredicate_null_mix_semantics [("a", PyVal.int 1)] "a" (.str "x")
    (.int 1) (.str "x") rfl rfl
  exact ⟨(h.2.2.2.1 (Or.inl ⟨1, "x", rfl, rfl⟩)).1,
         (h.2.2.2.2 (Or.inr (Or.inr (Or.inl ⟨1, "x", rfl, rfl⟩)))).1⟩

/-- C3 (counterexample): with `foo` registered in the persisted catalog,
`has_table` and `get_table_columns` resolve `foo` but not its casing
variant `Foo` — the runtime catalog boundary compares case-sensitively. -/
theorem sysCatalog_case_sensitive_cex :
    sysHasTable [[("table_name", .str "foo"), ("column_name", .str "id"),
                  ("column_type", .str "INT"), ("column_order", .int 0)]] "foo" = true ∧
    sysHasTable [[("table_name", .str "foo"), ("column_name", .str "id"),
                  ("column_type", .str "INT"), ("column_order", .int 0)]] "Foo" = false ∧
    strLower "Foo" = strLower "foo" ∧
    sysGetTableColumns [[("table_name", .str "foo"), ("column_name", .str "id"),
                  ("column_type", .str "INT"), ("column_order", .int 0)]] "foo" =
      [(.str "id", .str "INT")] ∧
    sysGetTableColumns [[("table_name", .str "foo"), ("column_name", .str "id"),
                  ("column_type", .str "INT"), ("column_order", .int 0)]] "Foo" = [] :=
  ⟨rfl, rfl, rfl, rfl, rfl⟩

/-- C3 (amended): identifier case handling is split across the two catalog
boundaries.  The persisted `SystemCatalog` compares table names exactly
(`has_table` sees a name only when some catalog row carries that exact
string), while the compiler-side snapshot lower-cases its keys, so the
semantic analyzer's `CREATE TABLE` duplicate check rejects any casing
variant of an existing table. -/
theorem catalog_case_handling
    (crows : List Row) (v : String) (cat : CompCatalog) (name : String)
    (cols : List ColDef) (cat' : CompCatalog) (cols2 : List ColDef)
    (hok : catCreateTable cat name cols = .ok cat')
    (hvar : strLower v = strLower name) :
    (sysHasTable crows v = true ↔ ∃ r ∈ crows, rowGet r "table_name" = .str v) ∧
    catHasTable cat' v = true ∧
    checkCreateTable cat' v cols2 = .error ("table exists: " ++ v) := by
  have hmem : catHasTable cat' v = true := by
    simp only [catCreateTable] at hok
    split at hok
    · exact Except.noConfusion hok
    · cases hok
      simp [catHasTable, hvar]
  refine ⟨?_, hmem, ?_⟩
  · constructor
    · intro h
      obtain ⟨r, hr, heq⟩ := List.any_eq_true.mp h
      refine ⟨r, hr, ?_⟩
      cases hv : rowGet r "table_name" <;> simp_all [pyEq, asNum]
    · rintro ⟨r, hr, heq⟩
      exact List.any_eq_true.mpr ⟨r, hr, by simp [heq, pyEq]⟩
  · simp [checkCreateTable, hmem]

/-- C3 (witness): creating `foo` in an empty compiler catalog makes the
casing variant `FOO` a duplicate, while the persisted catalog's exact
lookup is characterized on a one-row catalog. -/
theorem catalog_case_handling_witness :
    (sysHasTable [[("table_name", .str "foo")]] "Foo" = true ↔
      ∃ r ∈ [[("table_name", PyVal.str "foo")]], rowGet r "table_name" = .str "Foo") ∧
    catHasTable [("foo", ("foo", [⟨"id", "INT"⟩]))] "Foo" = true ∧
    checkCreateTable [("foo", ("foo", [⟨"id", "INT"⟩]))] "Foo" [⟨"id", "INT"⟩] =
      .error ("table exists: " ++ "Foo") :=
  catalog_case_handling [[("table_name", .str "foo")]] "Foo"
    [] "foo" [⟨"id", "INT"⟩] [("foo", ("foo", [⟨"id", "INT"⟩]))] [⟨"id", "INT"⟩]
    rfl rfl

/-- C4 (code bug): for `SELECT * FROM s JOIN c ON s.id = c.id WHERE sid = 1`
over `s = [{sid:1,id:10},{sid:2,id:20}]`, `c = [{id:10,name:'x'},
{id:20,name:'y'}]`, the planner pushes the predicate `sid = 1` into `c`'s
scan (`_predicate_involves_table` is constantly true), where it is
vacuously false; the planned tree evaluates to no rows while the original
`WHERE` applied to the join result keeps one row. -/
theorem planner_pushdown_changes_semantics :
    execPlan c4env (planSelect c4stmt) = .ok [] ∧
    specSelectResult c4env c4stmt =
      .ok [[("sid", .int 1), ("id", .int 10), ("name", .str "x")]] ∧
    ([] : List Row) ≠ [[("sid", .int 1), ("id", .int 10), ("name", .str "x")]] :=
  ⟨rfl, rfl, by simp⟩

/-- C8: a `CREATE TABLE` for a name the catalog already has fails with an
error raised before any catalog row is appended, so the catalog contents
are unchanged by the failed attempt. -/
theorem createTable_duplicate_rejected
    (crows : List Row) (t : String) (cols : List ColDef)
    (h : sysHasTable crows t = true) :
    sysCreateTable crows t cols = .error ("table exists: " ++ t) ∧
    sysCreateTableAfter crows t cols = crows := by
  constructor
  · simp [sysCreateTable, h]
  · simp [sysCreateTableAfter, sysCreateTable, h]

/-- C8 (witness): duplicating the one-table catalog `student` fails and
leaves the catalog rows untouched. -/
theorem createTable_duplicate_rejected_witness :
    sysCreateTable [[("table_name", .str "student")]] "student" [⟨"id", "INT"⟩] =
      .error ("table exists: " ++ "student") ∧
    sysCreateTableAfter [[("table_name", .str "student")]] "student" [⟨"id", "INT"⟩] =
      [[("table_name", .str "student")]] :=
  createTable_duplicate_rejected [[("table_name", .str "student")]] "student"
    [⟨"id", "INT"⟩] rfl

/-- C10: a page buffer of 4096 zero bytes (a freshly allocated,
never-written page) deserializes to the empty page rather than an error,
the empty page yields no live rows, and the page a disk allocation creates
reads back as that empty page. -/
theorem zero_page_deserializes_empty :
    pageDeserialize (List.replicate PAGE_SIZE nulChar) = some [] ∧
    iterLiveRows [] = [] ∧
    ∀ d t, diskRead (diskAlloc d t).1 t (diskAlloc d t).2 = some [] := by
  refine ⟨rfl, rfl, fun d t => ?_⟩
  have hfile : diskFile (diskAlloc d t).1 t = diskFile d t ++ [[]] :=
    diskFile_setFile_self d t _
  simp only [diskRead, diskAlloc] at *
  rw [hfile, List.get?_eq_getElem?]
  exact List.getElem?_concat_length _ _

/-- Every row the scan loop collects passes the live-row filter. -/
theorem seqScanLoop_live (t : String) :
    ∀ (n pid : Nat) (s : BufState) (res : List Row) (s' : BufState),
      seqScanLoop s t pid n = some (res, s') → ∀ r ∈ res, isDeleted r = false := by
  intro n
  induction n with
  | zero =>
    intro pid s res s' h r hr
    simp only [seqScanLoop] at h
    cases h
    simp at hr
  | succ m ih =>
    intro pid s res s' h r hr
    simp only [seqScanLoop] at h
    cases hg : getPage s t pid with
    | none => rw [hg] at h; exact Option.noConfusion h
    | some pr =>
      rw [hg] at h
      obtain ⟨page, s1, log⟩ := pr
      simp only [Option.bind_eq_bind, Option.bind] at h
      cases hl : seqScanLoop s1 t (pid + 1) m with
      | none => rw [hl] at h; exact Option.noConfusion h
      | some pr2 =>
        rw [hl] at h
        cases h
        rcases List.mem_append.mp hr with hmem | hmem
        · have := List.of_mem_filter hmem
          simpa using this
        · exact ih (pid + 1) s1 pr2.1 pr2.2 (by rw [hl]) r hmem

/-- C7: tombstone opacity.  Every row yielded by a sequential scan
(`TableStorage.seq_scan` through the buffer pool, hence the leaf of any
`SeqScan`-rooted plan) has a non-truthy tombstone marker, so a tombstoned
row is never yielded; and the update loop of `TableStorage.update_where`
leaves every tombstoned row untouched at its position, applying neither the
update function nor the predicate's effects to it. -/
theorem tombstone_rows_invisible
    (s : BufState) (t : String) (res : List Row) (s' : BufState)
    (h : tableSeqScan s t = some (res, s')) :
    (∀ r ∈ res, isDeleted r = false) ∧
    (∀ (upd : Row → Row) (pred : Row → Bool) (p : PageL) (i : Nat) (r : Row),
      p.get? i = some r → isDeleted r = true →
      (updatePageRows upd pred p).1.get? i = some r) := by
  constructor
  · exact seqScanLoop_live t _ 0 s res s' h
  · intro upd pred p
    induction p with
    | nil => intro i r hi _; simp at hi
    | cons r0 rest ih =>
      intro i r hi hdel
      cases i with
      | zero =>
        rw [List.get?_cons_zero] at hi
        injection hi with hi
        subst hi
        simp [updatePageRows, hdel]
      | succ j =>
        rw [List.get?_cons_succ] at hi
        have hrec := ih j r hi hdel
        simp only [updatePageRows]
        split
        · simpa using hrec
        · simpa using hrec

/-- C7 (witness): on a one-page table holding one live and one tombstoned
row, the scan yields only the live row, and an unconditional update leaves
the tombstoned row in place unchanged. -/
theorem tombstone_rows_invisible_witness :
    (∀ r ∈ [[("id", PyVal.int 2)]], isDeleted r = false) ∧
    (∀ (upd : Row → Row) (pred : Row → Bool) (p : PageL) (i : Nat) (r : Row),
      p.get? i = some r → isDeleted r = true →
      (updatePageRows upd pred p).1.get? i = some r) := by
  have h := tombstone_rows_invisible
    (BufState.mk [("t", [[[("id", PyVal.int 1), ("__deleted__", PyVal.bool true)],
                          [("id", PyVal.int 2)]]])] [] 1 0 0 0) "t"
    [[("id", PyVal.int 2)]]
    (BufState.mk [("t", [[[("id", PyVal.int 1), ("__deleted__", PyVal.bool true)],
                          [("id", PyVal.int 2)]]])]
      [(("t", 0), Frame.mk [[("id", PyVal.int 1), ("__deleted__", PyVal.bool true)],
                            [("id", PyVal.int 2)]] false)] 1 0 1 0) rfl
  exact h

/-- `get_page` succeeds for every page id below the file's page count: a
cached frame is returned directly, and otherwise the disk read is in
bounds. -/
theorem getPage_isSome (s : BufState) (t : String) (pid : Nat)
    (h : pid < diskNumPages s.disk t) : (getPage s t pid).isSome = true := by
  unfold getPage
  cases hc : cacheFind s.cache (t, pid) with
  | some frame => simp [hc]
  | none =>
    have hread : diskRead s.disk t pid = some ((diskFile s.disk t).get ⟨pid, h⟩) := by
      simp [diskRead, List.get?_eq_get h]
    simp [hc, hread]

/-- The append-with-retry tail succeeds whenever the row fits an empty
page. -/
theorem appendRowCore_isSome (t : String) (row : Row) (pid : Nat)
    (page : PageL) (s1 : BufState) (h : (tryAppendRow [] row).isSome = true) :
    (appendRowCore t row pid page s1).isSome = true := by
  unfold appendRowCore
  cases ht : tryAppendRow page row with
  | some q => rfl
  | none =>
    cases ht0 : tryAppendRow [] row with
    | none => rw [ht0] at h; exact Bool.noConfusion h
    | some q0 => rfl

/-- C9: if a row fits within an empty page when serialized
(`try_append_row` on a fresh page succeeds), then `append_row` always
succeeds: in particular when the last page rejects the row, the retry on
the freshly allocated page appends it, so the `assert ok` failure branch is
unreachable. -/
theorem appendRow_total (s : BufState) (t : String) (row : Row)
    (h : (tryAppendRow [] row).isSome = true) :
    (appendRow s t row).isSome = true := by
  unfold appendRow
  by_cases h0 : diskNumPages s.disk t = 0
  · rw [if_pos h0]
    exact appendRowCore_isSome t row _ _ _ h
  · rw [if_neg h0]
    have hlt : diskNumPages s.disk t - 1 < diskNumPages s.disk t := by omega
    obtain ⟨pr, hgp⟩ := Option.isSome_iff_exists.mp (getPage_isSome s t _ hlt)
    rw [hgp, Option.some_bind]
    exact appendRowCore_isSome t row _ _ _ h

/-- C9 (witness): the one-column row `{id: 1}` fits an empty page, and
appending it to a fresh table on an empty buffer pool succeeds. -/
theorem appendRow_total_witness :
    (appendRow (BufState.mk [] [] 4 0 0 0) "t" [("id", PyVal.int 1)]).isSome = true :=
  appendRow_total (BufState.mk [] [] 4 0 0 0) "t" [("id", PyVal.int 1)] (by decide)

/-! Lemmas about the OrderBy sort. -/

/-- Python `==` on sort keys is symmetric. -/
theorem skeyEq_symm (a b : SKey) : skeyEq a b = skeyEq b a := by
  cases a <;> cases b <;> simp [skeyEq] <;>
    exact ⟨fun h => h.symm, fun h => h.symm⟩

/-- Code-point order on strings is asymmetric. -/
theorem charListLt_asymm :
    ∀ {s t : List Char}, charListLt s t = true → charListLt t s = false := by
  intro s
  induction s with
  | nil => intro t h; cases t <;> simp_all [charListLt]
  | cons a as ih =>
    intro t h
    cases t with
    | nil => simp [charListLt] at h
    | cons b bs =>
      by_cases hab : a < b
      · have hba : ¬b < a := fun hba => absurd hab (Nat.lt_asymm hba)
        simp [charListLt, hba, hab]
      · by_cases hba : b < a
        · simp [charListLt, hab, hba] at h
        · simp only [charListLt, if_neg hab, if_neg hba] at h
          simp [charListLt, hab, hba, ih h]

/-- Python `<` on sort keys is asymmetric. -/
theorem skeyLt_asymm {a b : SKey} (h : skeyLt a b = some true) :
    skeyLt b a = some false := by
  cases a <;> cases b <;> first
    | (simp_all [skeyLt, charListLt_asymm]; omega)
    | simp_all [skeyLt, charListLt_asymm]

/-- The list comparison is asymmetric. -/
theorem keyListLt_asymm :
    ∀ {a b : List SKey}, keyListLt a b = some true → keyListLt b a = some false := by
  intro a
  induction a with
  | nil => intro b h; cases b <;> simp_all [keyListLt]
  | cons x xs ih =>
    intro b h
    cases b with
    | nil => simp [keyListLt] at h
    | cons y ys =>
      by_cases hxy : skeyEq x y = true
      · have hyx : skeyEq y x = true := by rw [skeyEq_symm]; exact hxy
        rw [keyListLt, if_pos hxy] at h
        rw [keyListLt, if_pos hyx]
        exact ih h
      · have hyx : ¬skeyEq y x = true := by rw [skeyEq_symm]; exact hxy
        rw [keyListLt, if_neg hxy] at h
        rw [keyListLt, if_neg hyx]
        exact skeyLt_asymm h

/-- Strict sorts-before is asymmetric on keyed rows. -/
theorem keyedLt_asymm {a b : List SKey × Row} (h : keyedLt a b = true) :
    keyedLt b a = false := by
  unfold keyedLt at h ⊢
  cases hl : keyListLt a.1 b.1 with
  | none => rw [hl] at h; exact Bool.noConfusion h
  | some v =>
    rw [hl] at h
    cases v with
    | false => exact Bool.noConfusion h
    | true => rw [keyListLt_asymm hl]

/-- Stable insertion is a permutation. -/
theorem insertKeyed_perm (x : List SKey × Row) :
    ∀ l, (insertKeyed x l).Perm (x :: l) := by
  intro l
  induction l with
  | nil => simp [insertKeyed]
  | cons y ys ih =>
    by_cases h : keyedLt x y = true
    · simp [insertKeyed, h]
    · rw [insertKeyed, if_neg h]
      exact (ih.cons y).trans (List.Perm.swap x y ys)

/-- The insertion sort is a permutation. -/
theorem sortKeyed_perm : ∀ l, (sortKeyed l).Perm l := by
  intro l
  induction l with
  | nil => simp [sortKeyed]
  | cons x xs ih =>
    exact (insertKeyed_perm x (sortKeyed xs)).trans (ih.cons x)

/-- Inserting into a chain-sorted list keeps it chain-sorted (the chain
relation: the later row does not sort strictly before the earlier one). -/
theorem chain_insertKeyed (x : List SKey × Row) :
    ∀ l, List.Chain' (fun a b => keyedLt b a = false) l →
      List.Chain' (fun a b => keyedLt b a = false) (insertKeyed x l) := by
  intro l
  induction l with
  | nil => intro _; simp [insertKeyed]
  | cons y ys ih =>
    intro h
    by_cases hxy : keyedLt x y = true
    · rw [insertKeyed, if_pos hxy]
      exact List.Chain'.cons (keyedLt_asymm hxy) h
    · rw [insertKeyed, if_neg hxy]
      refine List.chain'_cons'.mpr ⟨?_, ih h.tail⟩
      intro z hz
      cases ys with
      | nil =>
        simp only [insertKeyed, Option.mem_def, List.head?_cons] at hz
        cases hz
        exact Bool.not_eq_true _ ▸ (by simpa using hxy)
      | cons w ws =>
        by_cases hxw : keyedLt x w = true
        · simp only [insertKeyed, if_pos hxw, List.head?_cons, Option.mem_def] at hz
          cases hz
          simpa using hxy
        · simp only [insertKeyed, if_neg hxw, List.head?_cons, Option.mem_def] at hz
          cases hz
          exact List.chain'_cons.mp h |>.1

/-- The insertion sort chain-sorts any list of keyed rows. -/
theorem sortKeyed_chain : ∀ l,
    List.Chain' (fun a b => keyedLt b a = false) (sortKeyed l) := by
  intro l
  induction l with
  | nil => simp [sortKeyed]
  | cons x xs ih => exact chain_insertKeyed x (sortKeyed xs) ih

/-- Keys that are not strings (the float infinities and numbers). -/
def isNumKey : SKey → Bool
  | .str _ => false
  | _ => true

/-- Two non-string keys always compare without raising. -/
theorem skeyLt_total {a b : SKey} (ha : isNumKey a = true) (hb : isNumKey b = true) :
    (skeyLt a b).isSome = true := by
  cases a <;> cases b <;> simp_all [skeyLt, isNumKey]

/-- Two lists of non-string keys always compare without raising. -/
theorem keyListLt_total :
    ∀ {a b : List SKey}, (∀ k ∈ a, isNumKey k = true) → (∀ k ∈ b, isNumKey k = true) →
      (keyListLt a b).isSome = true := by
  intro a
  induction a with
  | nil => intro b _ _; cases b <;> simp [keyListLt]
  | cons x xs ih =>
    intro b ha hb
    cases b with
    | nil => simp [keyListLt]
    | cons y ys =>
      by_cases hxy : skeyEq x y = true
      · rw [keyListLt, if_pos hxy]
        exact ih (fun k hk => ha k (List.mem_cons_of_mem x hk))
          (fun k hk => hb k (List.mem_cons_of_mem y hk))
      · rw [keyListLt, if_neg hxy]
        exact skeyLt_total (ha x (List.mem_cons_self x xs)) (hb y (List.mem_cons_self y ys))

/-- A null or numeric column value yields a non-string sort key. -/
theorem sortKeyOne_num {spec : OrderSpec} {row : Row}
    (h : rowGet row spec.column = .null ∨ ∃ n, asNum (rowGet row spec.column) = some n) :
    isNumKey (sortKeyOne spec row) = true := by
  unfold sortKeyOne
  rcases h with h | ⟨n, h⟩
  · rw [h]
    by_cases hd : spec.direction = "DESC" <;>
      by_cases ha : spec.direction = "ASC" <;> simp [hd, ha, isNumKey]
  · cases hv : rowGet row spec.column <;> rw [hv] at h <;> simp [asNum] at h <;>
      by_cases hd : spec.direction = "DESC" <;> simp [hd, isNumKey]

/-- All pairs drawn from keyed rows with non-string keys are comparable. -/
theorem allComparable_of_num :
    ∀ l : List (List SKey × Row), (∀ p ∈ l, ∀ k ∈ p.1, isNumKey k = true) →
      allComparable l = true := by
  intro l
  induction l with
  | nil => simp [allComparable]
  | cons p rest ih =>
    intro h
    rw [allComparable, Bool.and_eq_true]
    constructor
    · rw [List.all_eq_true]
      intro q hq
      exact keyListLt_total (h p (List.mem_cons_self p rest) ·)
        (h q (List.mem_cons_of_mem p hq) ·)
    · exact ih (fun q hq => h q (List.mem_cons_of_mem p hq))

/-- Under `ASC` and under `DESC` alike, a null column value's transformed
sort key is `-inf`, so no non-string key sorts strictly before it. -/
theorem skeyLt_null_key_min {spec : OrderSpec} {row row' : Row}
    (hdir : spec.direction = "ASC" ∨ spec.direction = "DESC")
    (hnull : rowGet row spec.column = .null)
    (hnum : isNumKey (sortKeyOne spec row') = true) :
    skeyLt (sortKeyOne spec row') (sortKeyOne spec row) = some false := by
  have hkey : sortKeyOne spec row = .negInf := by
    unfold sortKeyOne
    rcases hdir with h | h <;> simp [h, hnull]
  rw [hkey]
  cases hk : sortKeyOne spec row' <;> rw [hk] at hnum <;>
    simp_all [skeyLt, isNumKey]

/-! Lemmas about the disk and the buffer pool. -/

/-- Reading back the page just written. -/
theorem diskRead_write_self (d : Disk) (t : String) (pid : Nat) (p : PageL) :
    diskRead (diskWrite d t pid p) t pid = some p := by
  unfold diskWrite diskRead
  by_cases hlt : pid < (diskFile d t).length
  · rw [if_pos hlt, diskFile_setFile_self]
    rw [List.get?_eq_getElem?]
    rw [List.getElem?_set_self (by simpa using hlt)]
  · rw [if_neg hlt, diskFile_setFile_self]
    rw [List.get?_eq_getElem?]
    have hlen : (diskFile d t ++ List.replicate (pid - (diskFile d t).length) []).length
        = pid := by
      simp only [List.length_append, List.length_replicate]
      omega
    have hconcat := List.getElem?_concat_length
      (diskFile d t ++ List.replicate (pid - (diskFile d t).length) ([] : PageL)) p
    rw [hlen] at hconcat
    exact hconcat

/-- A write to a different `(table, page-id)` preserves an existing read. -/
theorem diskRead_write_ne (d : Disk) (t t' : String) (pid pid' : Nat)
    (p : PageL) (q : PageL) (hq : diskRead d t pid = some q)
    (hne : (t, pid) ≠ (t', pid')) :
    diskRead (diskWrite d t' pid' p) t pid = some q := by
  by_cases ht : t = t'
  · subst ht
    have hpid : pid ≠ pid' := fun he => hne (by rw [he])
    have hlt : pid < (diskFile d t).length := by
      by_contra hge
      rw [diskRead, List.get?_eq_getElem?, List.getElem?_eq_none (by omega)] at hq
      exact Option.noConfusion hq
    unfold diskWrite diskRead
    by_cases hlt' : pid' < (diskFile d t).length
    · rw [if_pos hlt', diskFile_setFile_self, List.get?_eq_getElem?,
        List.getElem?_set_ne (Ne.symm hpid)]
      rw [diskRead, List.get?_eq_getElem?] at hq
      exact hq
    · rw [if_neg hlt', diskFile_setFile_self, List.get?_eq_getElem?]
      rw [List.getElem?_append_left (by simp; omega)]
      rw [List.getElem?_append_left (by simpa using hlt)]
      rw [diskRead, List.get?_eq_getElem?] at hq
      exact hq
  · unfold diskWrite
    by_cases hlt' : pid' < (diskFile d t').length
    · rw [if_pos hlt']
      rw [diskRead, diskFile_setFile_other _ _ _ _ ht, ← diskRead]
      exact hq
    · rw [if_neg hlt']
      rw [diskRead, diskFile_setFile_other _ _ _ _ ht, ← diskRead]
      exact hq

/-- The eviction loop never leaves more than `capacity` frames resident. -/
theorem evictLoop_length (cap : Nat) :
    ∀ (cache : List (PageKey × Frame)) (disk : Disk) (log : List (PageKey × Frame)),
      (evictLoop cap disk cache log).2.1.length ≤ cap := by
  intro cache
  induction cache with
  | nil => intro disk log; simp [evictLoop]
  | cons e rest ih =>
    intro disk log
    obtain ⟨key, frame⟩ := e
    rw [evictLoop]
    by_cases hlen : ((key, frame) :: rest).length > cap
    · rw [if_pos hlen]
      exact ih _ _
    · rw [if_neg hlen]
      simpa using Nat.le_of_not_lt hlen

/-- Every dirty frame the eviction loop pops is on the resulting disk:
the write-back happens before removal and no later eviction (the cache
keys being distinct) overwrites it. -/
theorem evictLoop_writeback (cap : Nat) :
    ∀ (cache : List (PageKey × Frame)) (disk : Disk) (log : List (PageKey × Frame)),
      (cache.map Prod.fst).Nodup →
      (∀ kf ∈ log, kf.2.dirty = true →
        diskRead disk kf.1.1 kf.1.2 = some kf.2.page) →
      (∀ kf ∈ log, ∀ kf' ∈ cache, kf.1 ≠ kf'.1) →
      ∀ kf ∈ (evictLoop cap disk cache log).2.2, kf.2.dirty = true →
        diskRead (evictLoop cap disk cache log).1 kf.1.1 kf.1.2 = some kf.2.page := by
  intro cache
  induction cache with
  | nil =>
    intro disk log _ hlog _ kf hkf hdirty
    simpa [evictLoop] using hlog kf (by simpa [evictLoop] using hkf) hdirty
  | cons e rest ih =>
    intro disk log hnodup hlog hdisj kf hkf hdirty
    obtain ⟨key, frame⟩ := e
    rw [evictLoop] at hkf ⊢
    by_cases hlen : ((key, frame) :: rest).length > cap
    · rw [if_pos hlen] at hkf ⊢
      have hnodup1 : (key :: rest.map Prod.fst).Nodup := by simpa using hnodup
      have hnodup' : (rest.map Prod.fst).Nodup := hnodup1.of_cons
      have hkeymem : key ∉ rest.map Prod.fst := (List.nodup_cons.mp hnodup1).1
      set disk' := if frame.dirty then diskWrite disk key.1 key.2 frame.page else disk
        with hdisk'
      have hlog' : ∀ kf ∈ log ++ [(key, frame)], kf.2.dirty = true →
          diskRead disk' kf.1.1 kf.1.2 = some kf.2.page := by
        intro kf2 hkf2 hd2
        rcases List.mem_append.mp hkf2 with hold | hnew
        · have hprev := hlog kf2 hold hd2
          have hne : kf2.1 ≠ key :=
            hdisj kf2 hold (key, frame) (List.mem_cons_self _ _)
          rw [hdisk']
          by_cases hfd : frame.dirty = true
          · rw [if_pos hfd]
            exact diskRead_write_ne disk kf2.1.1 key.1 kf2.1.2 key.2 _ _ hprev
              (fun he => hne (Prod.ext (congrArg Prod.fst he) (congrArg Prod.snd he)))
          · rw [if_neg hfd]
            exact hprev
        · have : kf2 = (key, frame) := by simpa using hnew
          subst this
          rw [hdisk', if_pos hd2]
          exact diskRead_write_self disk key.1 key.2 frame.page
      have hdisj' : ∀ kf ∈ log ++ [(key, frame)], ∀ kf' ∈ rest, kf.1 ≠ kf'.1 := by
        intro kf2 hkf2 kf' hkf'
        rcases List.mem_append.mp hkf2 with hold | hnew
        · exact hdisj kf2 hold kf' (List.mem_cons_of_mem _ hkf')
        · have : kf2 = (key, frame) := by simpa using hnew
          subst this
          intro he
          refine hkeymem ?_
          have hm := List.mem_map_of_mem Prod.fst hkf'
          rw [show (key, frame).1 = key from rfl] at he
          rw [he]
          exact hm
      exact ih disk' (log ++ [(key, frame)]) hnodup' hlog' hdisj' kf hkf hdirty
    · rw [if_neg hlen] at hkf ⊢
      exact hlog kf hkf hdirty

/-- A key the cache lookup misses is not among the cache keys. -/
theorem cacheFind_none_not_mem {cache : List (PageKey × Frame)} {key : PageKey}
    (h : cacheFind cache key = none) : key ∉ cache.map Prod.fst := by
  intro hmem
  obtain ⟨kf, hkf, hfst⟩ := List.mem_map.mp hmem
  unfold cacheFind at h
  cases hf : cache.find? (fun p => p.1 == key) with
  | some q => rw [hf] at h; exact Option.noConfusion h
  | none =>
    have := List.find?_eq_none.mp hf kf hkf
    simp [hfst] at this

/-- A successful cache lookup shrinks the cache on erasure. -/
theorem cacheErase_length_lt {cache : List (PageKey × Frame)} {key : PageKey}
    {frame : Frame} (h : cacheFind cache key = some frame) :
    (cacheErase cache key).length < cache.length := by
  unfold cacheFind at h
  cases hf : cache.find? (fun p => p.1 == key) with
  | none => rw [hf] at h; exact Option.noConfusion h
  | some q =>
    have hqmem := List.mem_of_find?_eq_some hf
    have hqkey : (q.1 == key) = true := by
      have := List.find?_some hf
      simpa using this
    unfold cacheErase
    rw [List.length_filter_lt_length_iff_exists]
    exact ⟨q, hqmem, by simp_all⟩

/-- Keys with one fresh element appended stay duplicate-free. -/
theorem nodup_append_single {l : List PageKey} {key : PageKey}
    (h : l.Nodup) (hk : key ∉ l) : (l ++ [key]).Nodup := by
  rw [List.nodup_append]
  exact ⟨h, List.nodup_singleton key, fun a ha hb => hk ((List.mem_singleton.mp hb) ▸ ha)⟩

/-- `flush_page` never changes how many frames are resident. -/
theorem flushPage_cache_length (s : BufState) (t : String) (pid : Nat) :
    (flushPage s t pid).cache.length = s.cache.length := by
  unfold flushPage
  cases hc : cacheFind s.cache (t, pid) with
  | none => rfl
  | some frame =>
    by_cases hd : frame.dirty = true
    · simp [hd, cacheModify]
    · simp [hd]

/-- C6: starting from a state with at most `capacity` resident frames whose
keys are distinct (a Python dict invariant) and cached pages that exist on
disk, every buffer-pool operation (`get_page`, `new_page`, `mark_dirty`,
`flush_page`, `flush_all`) leaves at most `capacity` resident frames, and
every frame evicted by the operation while dirty has been written to disk:
the post-state disk returns exactly the evicted frame's page. -/
theorem buffer_capacity_writeback
    (s : BufState) (op : BufOp) (s' : BufState) (log : List (PageKey × Frame))
    (hnodup : (s.cache.map Prod.fst).Nodup)
    (hcap : s.cache.length ≤ s.capacity)
    (hpages : ∀ kf ∈ s.cache, kf.1.2 < diskNumPages s.disk kf.1.1)
    (h : applyBufOp s op = some (s', log)) :
    s'.cache.length ≤ s.capacity ∧
    (∀ kf ∈ log, kf.2.dirty = true →
      diskRead s'.disk kf.1.1 kf.1.2 = some kf.2.page) := by
  cases op with
  | getPage t pid =>
    simp only [applyBufOp] at h
    unfold getPage at h
    cases hc : cacheFind s.cache (t, pid) with
    | some frame =>
      rw [hc] at h
      simp only [Option.map_some'] at h
      injection h with h
      obtain ⟨rfl, rfl⟩ := Prod.mk.injEq .. |>.mp h.symm
      constructor
      · have := cacheErase_length_lt hc
        simpa using Nat.le_trans (by simpa using this) hcap
      · intro kf hkf
        simp at hkf
    | none =>
      rw [hc] at h
      cases hr : diskRead s.disk t pid with
      | none => rw [hr] at h; exact Option.noConfusion h
      | some page =>
        rw [hr] at h
        simp only [Option.map_some'] at h
        injection h with h
        obtain ⟨rfl, rfl⟩ := Prod.mk.injEq .. |>.mp h.symm
        refine ⟨evictLoop_length s.capacity _ _ _, ?_⟩
        have hn1 : ((s.cache ++ [((t, pid), Frame.mk page false)]).map Prod.fst).Nodup := by
          rw [List.map_append]
          exact nodup_append_single hnodup (cacheFind_none_not_mem hc)
        exact evictLoop_writeback s.capacity _ s.disk [] hn1
          (fun kf hkf _ => by simp at hkf) (fun kf hkf _ _ => by simp at hkf)
  | newPage t =>
    simp only [applyBufOp] at h
    injection h with h
    obtain ⟨rfl, rfl⟩ := Prod.mk.injEq .. |>.mp h.symm
    refine ⟨evictLoop_length s.capacity _ _ _, ?_⟩
    have hkeymem : ((t, (diskAlloc s.disk t).2) : PageKey) ∉ s.cache.map Prod.fst := by
      intro hmem
      obtain ⟨kf, hkf, hfst⟩ := List.mem_map.mp hmem
      have hlt := hpages kf hkf
      rw [hfst] at hlt
      simp only [diskAlloc, diskNumPages] at hlt
      omega
    have hn1 : ((s.cache ++ [((t, (diskAlloc s.disk t).2), Frame.mk [] true)]).map
        Prod.fst).Nodup := by
      rw [List.map_append]
      exact nodup_append_single hnodup hkeymem
    exact evictLoop_writeback s.capacity _ (diskAlloc s.disk t).1 [] hn1
      (fun kf hkf _ => by simp at hkf) (fun kf hkf _ _ => by simp at hkf)
  | markDirty t pid =>
    simp only [applyBufOp] at h
    injection h with h
    obtain ⟨rfl, rfl⟩ := Prod.mk.injEq .. |>.mp h.symm
    refine ⟨?_, fun kf hkf => by simp at hkf⟩
    simpa [markDirty, cacheModify] using hcap
  | flushPage t pid =>
    simp only [applyBufOp] at h
    injection h with h
    obtain ⟨rfl, rfl⟩ := Prod.mk.injEq .. |>.mp h.symm
    refine ⟨?_, fun kf hkf => by simp at hkf⟩
    rw [flushPage_cache_length]
    exact hcap
  | flushAll =>
    simp only [applyBufOp] at h
    injection h with h
    obtain ⟨rfl, rfl⟩ := Prod.mk.injEq .. |>.mp h.symm
    refine ⟨?_, fun kf hkf => by simp at hkf⟩
    simpa [flushAll] using hcap

/-- C6 (witness): a capacity-1 pool holding a dirty frame for page 0 of `t`
reads page 1, evicting and writing back the dirty frame. -/
theorem buffer_capacity_writeback_witness :
    (BufState.mk [("t", [[[("a", PyVal.int 9)]], [[("a", PyVal.int 1)]]])]
        [(("t", 1), Frame.mk [[("a", PyVal.int 1)]] false)] 1 0 1 1).cache.length ≤ 1 ∧
    (∀ kf ∈ [((("t", 0) : PageKey), Frame.mk [[("a", PyVal.int 9)]] true)],
      kf.2.dirty = true →
      diskRead (BufState.mk [("t", [[[("a", PyVal.int 9)]], [[("a", PyVal.int 1)]]])]
          [(("t", 1), Frame.mk [[("a", PyVal.int 1)]] false)] 1 0 1 1).disk
        kf.1.1 kf.1.2 = some kf.2.page) :=
  buffer_capacity_writeback
    (BufState.mk [("t", [[[("a", PyVal.int 0)]], [[("a", PyVal.int 1)]]])]
      [(("t", 0), Frame.mk [[("a", PyVal.int 9)]] true)] 1 0 0 0)
    (.getPage "t" 1)
    (BufState.mk [("t", [[[("a", PyVal.int 9)]], [[("a", PyVal.int 1)]]])]
      [(("t", 1), Frame.mk [[("a", PyVal.int 1)]] false)] 1 0 1 1)
    [((("t", 0) : PageKey), Frame.mk [[("a", PyVal.int 9)]] true)]
    (by simp) (by simp) (by decide) rfl

/-- C2 (counterexample): sorting the rows `[{x:'a'}, {x:null}]` by `x ASC`
compares the string key `'a'` with the `-inf` float substituted for null
and raises `TypeError`; it does not place the null row first as smallest. -/
theorem orderBy_null_string_raises_cex :
    orderByExecute [⟨"x", "ASC"⟩] [[("x", .str "a")], [("x", .null)]] = none ∧
    orderByExecute [⟨"x", "ASC"⟩] [[("x", .str "a")], [("x", .null)]] ≠
      some [[("x", .null)], [("x", .str "a")]] := by
  refine ⟨rfl, fun h => ?_⟩
  rw [show orderByExecute [⟨"x", "ASC"⟩] [[("x", .str "a")], [("x", .null)]] = none
    from rfl] at h
  exact Option.noConfusion h

/-- C2 (amended): when every order-by key value is null or numeric (the
engine's integer columns; string keys mixed with a null raise `TypeError`
instead), `OrderBy` succeeds and returns a stable sort of its input in
which a null key value sits at the direction's extreme: its transformed
sort key is `-inf` under `ASC` (null sorts as the smallest value) and also
`-inf` under `DESC` because the `+inf` substitute is negated (so null
appears first in the descending output, i.e. as the largest value). -/
theorem orderBy_null_extremes
    (specs : List OrderSpec) (rows : List Row)
    (hdir : ∀ spec ∈ specs, spec.direction = "ASC" ∨ spec.direction = "DESC")
    (hkeys : ∀ row ∈ rows, ∀ spec ∈ specs,
      rowGet row spec.column = .null ∨ ∃ n, asNum (rowGet row spec.column) = some n) :
    ∃ out, orderByExecute specs rows = some out ∧
      out.Perm rows ∧
      List.Chain'
        (fun a b => keyedLt (sortKey specs b, b) (sortKey specs a, a) = false) out ∧
      (∀ spec ∈ specs, ∀ row ∈ rows, ∀ row' ∈ rows,
        rowGet row spec.column = .null →
        skeyLt (sortKeyOne spec row') (sortKeyOne spec row) = some false) := by
  have hnumkeys : ∀ p ∈ rows.map (fun r => (sortKey specs r, r)), ∀ k ∈ p.1,
      isNumKey k = true := by
    intro p hp k hk
    obtain ⟨r, hr, rfl⟩ := List.mem_map.mp hp
    obtain ⟨spec, hspec, rfl⟩ := List.mem_map.mp hk
    exact sortKeyOne_num (hkeys r hr spec hspec)
  have hcomp := allComparable_of_num _ hnumkeys
  refine ⟨(sortKeyed (rows.map (fun r => (sortKey specs r, r)))).map (fun p => p.2),
    ?_, ?_, ?_, ?_⟩
  · rw [orderByExecute]
    simp only [hcomp, if_pos]
  · have h1 := (sortKeyed_perm (rows.map (fun r => (sortKey specs r, r)))).map
      (fun p : List SKey × Row => p.2)
    have h2 : (rows.map (fun r => (sortKey specs r, r))).map
        (fun p : List SKey × Row => p.2) = rows := by
      rw [List.map_map]
      exact List.map_id'' (fun r => rfl) rows
    rw [h2] at h1
    exact h1
  · have hshape : ∀ p ∈ sortKeyed (rows.map (fun r => (sortKey specs r, r))),
        p.1 = sortKey specs p.2 := by
      intro p hp
      have hmem := (sortKeyed_perm _).mem_iff.mp hp
      obtain ⟨r, _, rfl⟩ := List.mem_map.mp hmem
      rfl
    have hchain := sortKeyed_chain (rows.map (fun r => (sortKey specs r, r)))
    rw [List.chain'_map]
    revert hchain hshape
    generalize sortKeyed (rows.map (fun r => (sortKey specs r, r))) = l
    intro hshape hchain
    induction l with
    | nil => exact List.chain'_nil
    | cons p l ih =>
      cases l with
      | nil => exact List.chain'_singleton _
      | cons q l' =>
        have hp := hshape p (List.mem_cons_self _ _)
        have hq := hshape q (List.mem_cons_of_mem _ (List.mem_cons_self _ _))
        have hpq := (List.chain'_cons.mp hchain).1
        refine List.chain'_cons.mpr ⟨?_, ih
          (fun x hx => hshape x (List.mem_cons_of_mem _ hx))
          (List.chain'_cons.mp hchain).2⟩
        have hpp : (sortKey specs p.2, p.2) = p := by
          rw [← hp]
        have hqq : (sortKey specs q.2, q.2) = q := by
          rw [← hq]
        rw [hpp, hqq]
        exact hpq
  · intro spec hspec row hrow row' hrow' hnull
    exact skeyLt_null_key_min (hdir spec hspec) hnull
      (sortKeyOne_num (hkeys row' hrow' spec hspec))

/-- C2 (witness): sorting `[{x:2}, {x:null}]` by `x ASC` succeeds with the
null row at the extreme. -/
theorem orderBy_null_extremes_witness :
    ∃ out, orderByExecute [⟨"x", "ASC"⟩] [[("x", PyVal.int 2)], [("x", PyVal.null)]] =
        some out ∧
      out.Perm [[("x", PyVal.int 2)], [("x", PyVal.null)]] ∧
      List.Chain'
        (fun a b => keyedLt (sortKey [⟨"x", "ASC"⟩] b, b)
          (sortKey [⟨"x", "ASC"⟩] a, a) = false) out ∧
      (∀ spec ∈ [OrderSpec.mk "x" "ASC"],
        ∀ row ∈ [[("x", PyVal.int 2)], [("x", PyVal.null)]],
        ∀ row' ∈ [[("x", PyVal.int 2)], [("x", PyVal.null)]],
        rowGet row spec.column = .null →
        skeyLt (sortKeyOne spec row') (sortKeyOne spec row) = some false) :=
  orderBy_null_extremes [⟨"x", "ASC"⟩] [[("x", PyVal.int 2)], [("x", PyVal.null)]]
    (by decide)
    (by
      intro row hrow spec hspec
      fin_cases hspec
      fin_cases hrow
      · exact Or.inr ⟨2, rfl⟩
      · exact Or.inl rfl)

/-! Round-trip lemmas for the page JSON encoding: decimal numbers. -/

/-- `headNotDigit l`: the input does not continue with a decimal digit, so
a maximal-munch number parse stops exactly here. -/
def headNotDigit : List Char → Bool
  | [] => true
  | c :: _ => !isDigitChar c

/-- The code point of a digit character. -/
theorem digitChar_toNat {n : Nat} (h : n < 10) : (digitChar n).toNat = 48 + n := by
  unfold digitChar Char.ofNat
  split
  · rfl
  · rename_i hn
    exact absurd (Or.inl (by omega)) hn

/-- Digit characters satisfy the digit test. -/
theorem isDigitChar_digitChar {n : Nat} (h : n < 10) :
    isDigitChar (digitChar n) = true := by
  simp [isDigitChar, digitChar_toNat h]
  omega

/-- The accumulator of `natToDigitsAux` is a suffix. -/
theorem natToDigitsAux_append :
    ∀ (fuel n : Nat) (acc : List Char),
      natToDigitsAux fuel n acc = natToDigitsAux fuel n [] ++ acc := by
  intro fuel
  induction fuel with
  | zero => intro n acc; simp [natToDigitsAux]
  | succ f ih =>
    intro n acc
    rw [natToDigitsAux, natToDigitsAux]
    by_cases h : n < 10
    · rw [if_pos h, if_pos h]
      simp
    · rw [if_neg h, if_neg h, ih (n / 10) (digitChar (n % 10) :: acc),
        ih (n / 10) [digitChar (n % 10)]]
      simp

/-- `natToDigitsAux` ignores the fuel as long as it dominates `n`. -/
theorem natToDigitsAux_fuel :
    ∀ (fuel fuel' n : Nat) (acc : List Char), n < fuel → n < fuel' →
      natToDigitsAux fuel n acc = natToDigitsAux fuel' n acc := by
  intro fuel
  induction fuel with
  | zero => intro fuel' n acc h _; omega
  | succ f ih =>
    intro fuel' n acc h h'
    cases fuel' with
    | zero => omega
    | succ f' =>
      rw [natToDigitsAux, natToDigitsAux]
      by_cases h10 : n < 10
      · rw [if_pos h10, if_pos h10]
      · rw [if_neg h10, if_neg h10]
        exact ih f' (n / 10) _ (by omega) (by omega)

/-- Small numbers are single digits. -/
theorem natToDigits_lt10 {n : Nat} (h : n < 10) : natToDigits n = [digitChar n] := by
  rw [natToDigits, natToDigitsAux, if_pos h]

/-- Larger numbers peel their last digit. -/
theorem natToDigits_ge10 {n : Nat} (h : 10 ≤ n) :
    natToDigits n = natToDigits (n / 10) ++ [digitChar (n % 10)] := by
  rw [natToDigits, natToDigitsAux, if_neg (by omega),
    natToDigitsAux_append, natToDigits]
  rw [natToDigitsAux_fuel n (n / 10 + 1) (n / 10) [] (by omega) (by omega)]

/-- Every character the decimal printer emits is a digit. -/
theorem natToDigits_digits (n : Nat) : ∀ c ∈ natToDigits n, isDigitChar c = true := by
  induction n using Nat.strong_induction_on with
  | _ n ih =>
    by_cases h : n < 10
    · rw [natToDigits_lt10 h]
      intro c hc
      rw [List.mem_singleton.mp hc]
      exact isDigitChar_digitChar h
    · rw [natToDigits_ge10 (by omega)]
      intro c hc
      rcases List.mem_append.mp hc with hc | hc
      · exact ih (n / 10) (by omega) c hc
      · rw [List.mem_singleton.mp hc]
        exact isDigitChar_digitChar (by omega)

/-- The decimal printer emits at least one digit. -/
theorem natToDigits_ne_nil (n : Nat) : natToDigits n ≠ [] := by
  by_cases h : n < 10
  · rw [natToDigits_lt10 h]
    simp
  · rw [natToDigits_ge10 (by omega)]
    simp

/-- `parseDigits` consumes exactly a run of digit characters, folding their
values, and stops at the first non-digit. -/
theorem parseDigits_append :
    ∀ (ds : List Char) (rest : List Char) (acc : Nat),
      (∀ c ∈ ds, isDigitChar c = true) → headNotDigit rest = true →
      parseDigits (ds ++ rest) acc =
        (ds.foldl (fun a c => a * 10 + (c.toNat - 48)) acc, rest) := by
  intro ds
  induction ds with
  | nil =>
    intro rest acc _ hrest
    cases rest with
    | nil => simp [parseDigits]
    | cons c cs =>
      simp only [headNotDigit, Bool.not_eq_true'] at hrest
      simp [parseDigits, hrest]
  | cons d ds ih =>
    intro rest acc hds hrest
    rw [List.cons_append, parseDigits, if_pos (hds d (List.mem_cons_self d ds))]
    rw [ih rest _ (fun c hc => hds c (List.mem_cons_of_mem d hc)) hrest]
    simp

/-- Folding the digit values of `natToDigits n` recovers `n` (scaled onto
the accumulator). -/
theorem foldl_natToDigits (n : Nat) :
    ∀ a : Nat, (natToDigits n).foldl (fun a c => a * 10 + (c.toNat - 48)) a =
      a * 10 ^ (natToDigits n).length + n := by
  induction n using Nat.strong_induction_on with
  | _ n ih =>
    intro a
    by_cases h : n < 10
    · rw [natToDigits_lt10 h]
      simp [digitChar_toNat h]
    · rw [natToDigits_ge10 (by omega), List.foldl_append,
        ih (n / 10) (by omega) a]
      simp only [List.foldl_cons, List.foldl_nil, List.length_append,
        List.length_singleton]
      rw [digitChar_toNat (by omega)]
      rw [pow_succ]
      have := Nat.div_add_mod n 10
      ring_nf
      omega

/-- Parsing the printed decimal of `n` yields `n` and the untouched rest. -/
theorem parseNat_natToDigits (n : Nat) (rest : List Char)
    (hrest : headNotDigit rest = true) :
    parseNat (natToDigits n ++ rest) = some (n, rest) := by
  cases hd : natToDigits n with
  | nil => exact absurd hd (natToDigits_ne_nil n)
  | cons c cs =>
    have hc : isDigitChar c = true :=
      natToDigits_digits n c (hd ▸ List.mem_cons_self c cs)
    rw [List.cons_append, parseNat, if_pos hc, ← List.cons_append, ← hd]
    rw [parseDigits_append _ _ _ (natToDigits_digits n) hrest]
    rw [foldl_natToDigits n 0]
    simp

/-- Parsing the printed integer of `n` yields `n`. -/
theorem parseInt_encodeInt (n : Int) (rest : List Char)
    (hrest : headNotDigit rest = true) :
    parseInt (encodeInt n ++ rest) = some (n, rest) := by
  by_cases h : n < 0
  · rw [encodeInt, if_pos h, List.cons_append, parseInt, if_pos rfl,
      parseNat_natToDigits _ _ hrest]
    simp only [Option.map_some']
    rw [Int.ofNat_natAbs_of_nonpos (by omega), neg_neg]
  · rw [encodeInt, if_neg h]
    have hne : ∀ c ∈ natToDigits n.natAbs, c ≠ '-' := by
      intro c hc he
      have := natToDigits_digits n.natAbs c hc
      rw [he] at this
      simp [isDigitChar] at this
    cases hd : natToDigits n.natAbs with
    | nil => exact absurd hd (natToDigits_ne_nil _)
    | cons c cs =>
      have hcne : c ≠ '-' := hne c (hd ▸ List.mem_cons_self c cs)
      rw [List.cons_append, parseInt, if_neg hcne, ← List.cons_append, ← hd,
        parseNat_natToDigits _ _ hrest]
      simp only [Option.map_some']
      rw [Int.natAbs_of_nonneg (by omega)]

/-! Round-trip lemmas for the page JSON encoding: strings. -/

/-- A literal prefix is consumed exactly. -/
theorem expectChars_append :
    ∀ (p rest : List Char), expectChars p (p ++ rest) = some rest := by
  intro p
  induction p with
  | nil => intro rest; rfl
  | cons c cs ih =>
    intro rest
    rw [List.cons_append, expectChars, if_pos rfl]
    exact ih rest

/-- Unfolding `parseString` on a cons cell. -/
theorem parseString_cons (c : Char) (cs : List Char) :
    parseString (c :: cs) =
      if c = '"' then (parseStringBody cs).map (fun p => (String.mk p.1, p.2))
      else none := rfl

/-- Unfolding `parseVal` on a cons cell. -/
theorem parseVal_cons (c : Char) (cs : List Char) :
    parseVal (c :: cs) =
      (if c = 'n' then
        (expectChars "null".data (c :: cs)).map (fun r => (PyVal.null, r))
      else if c = 't' then
        (expectChars "true".data (c :: cs)).map (fun r => (PyVal.bool true, r))
      else if c = 'f' then
        (expectChars "false".data (c :: cs)).map (fun r => (PyVal.bool false, r))
      else if c = '"' then
        (parseString (c :: cs)).map (fun p => (PyVal.str p.1, p.2))
      else (parseInt (c :: cs)).map (fun p => (PyVal.int p.1, p.2))) := rfl

/-- Hex digits round-trip through their printed character. -/
theorem hexVal_hexChar {m : Nat} (h : m < 16) :
    hexVal (hexChar m) = some m := by
  interval_cases m <;> decide

/-- A character's code point is a valid `Char.ofNat` argument. -/
theorem charOfNat_toNat (c : Char) : Char.ofNat c.toNat = c := Char.ofNat_toNat c

/-- Parsing an escaped string body recovers the original characters up to
the closing quote. -/
theorem parseStringBody_escape :
    ∀ (l rest : List Char),
      parseStringBody ((l.map escapeChar).flatten ++ '"' :: rest) = some (l, rest) := by
  intro l
  induction l with
  | nil =>
    intro rest
    rw [List.map_nil, List.flatten_nil, List.nil_append, parseStringBody.eq_def]
    simp
  | cons c cs ih =>
    intro rest
    rw [List.map_cons, List.flatten_cons, List.append_assoc]
    by_cases h1 : c = '"'
    · subst h1
      rw [show escapeChar '"' = ['\\', '"'] from rfl]
      rw [parseStringBody.eq_def]
      simp [ih]
    · by_cases h2 : c = '\\'
      · subst h2
        rw [show escapeChar '\\' = ['\\', '\\'] from rfl]
        rw [parseStringBody.eq_def]
        simp [ih]
      · by_cases h3 : c = Char.ofNat 8
        · subst h3
          rw [show escapeChar (Char.ofNat 8) = ['\\', 'b'] from rfl]
          rw [parseStringBody.eq_def]
          simp [ih]
        · by_cases h4 : c = Char.ofNat 9
          · subst h4
            rw [show escapeChar (Char.ofNat 9) = ['\\', 't'] from rfl]
            rw [parseStringBody.eq_def]
            simp [ih]
          · by_cases h5 : c = Char.ofNat 10
            · subst h5
              rw [show escapeChar (Char.ofNat 10) = ['\\', 'n'] from rfl]
              rw [parseStringBody.eq_def]
              simp [ih]
            · by_cases h6 : c = Char.ofNat 12
              · subst h6
                rw [show escapeChar (Char.ofNat 12) = ['\\', 'f'] from rfl]
                rw [parseStringBody.eq_def]
                simp [ih]
              · by_cases h7 : c = Char.ofNat 13
                · subst h7
                  rw [show escapeChar (Char.ofNat 13) = ['\\', 'r'] from rfl]
                  rw [parseStringBody.eq_def]
                  simp [ih]
                · by_cases h8 : c.toNat < 0x20
                  · rw [show escapeChar c = ['\\', 'u', '0', '0',
                      hexChar (c.toNat / 16), hexChar (c.toNat % 16)] by
                        simp [escapeChar, h1, h2, h3, h4, h5, h6, h7, h8]]
                    rw [parseStringBody.eq_def]
                    simp only [List.cons_append, List.nil_append]
                    simp only [if_neg (by decide : ¬('\\' : Char) = '"'),
                      if_pos (rfl : ('\\' : Char) = '\\'),
                      if_pos (rfl : ('u' : Char) = 'u')]
                    rw [show hexVal '0' = some 0 from rfl]
                    rw [hexVal_hexChar (by omega : c.toNat / 16 < 16)]
                    rw [hexVal_hexChar (by omega : c.toNat % 16 < 16)]
                    rw [ih rest]
                    simp only [ite_true, Option.bind_eq_bind, Option.some_bind,
                      Option.pure_def]
                    rw [show ((0 * 16 + 0) * 16 + c.toNat / 16) * 16 +
                      c.toNat % 16 = c.toNat by omega, charOfNat_toNat]
                  · rw [show escapeChar c = [c] by
                      simp [escapeChar, h1, h2, h3, h4, h5, h6, h7, h8]]
                    rw [List.singleton_append, parseStringBody.eq_def]
                    simp only [if_neg h1, if_neg h2]
                    rw [ih rest]
                    rfl

/-- Parsing an encoded string recovers it. -/
theorem parseString_encodeString (s : String) (rest : List Char) :
    parseString (encodeString s ++ rest) = some (s, rest) := by
  have h : encodeString s ++ rest =
      '"' :: ((s.data.map escapeChar).flatten ++ '"' :: rest) := by
    rw [encodeString]
    simp
  rw [h, parseString_cons, if_pos rfl, parseStringBody_escape s.data rest]
  rfl

/-! Round-trip lemmas for the page JSON encoding: scalar values, rows and
the page envelope. -/

/-- A digit character is none of the value-start markers. -/
theorem isDigitChar_ne {c : Char} (h : isDigitChar c = true) :
    c ≠ 'n' ∧ c ≠ 't' ∧ c ≠ 'f' ∧ c ≠ '"' := by
  simp only [isDigitChar, decide_eq_true_eq] at h
  refine ⟨?_, ?_, ?_, ?_⟩ <;> intro he <;> rw [he] at h <;> revert h <;> decide

/-- Parsing an encoded scalar value recovers it, provided the input does
not continue with a digit. -/
theorem parseVal_encodeVal (v : PyVal) (rest : List Char)
    (hrest : headNotDigit rest = true) :
    parseVal (encodeVal v ++ rest) = some (v, rest) := by
  cases v with
  | null =>
    rw [encodeVal]
    rw [show (['n', 'u', 'l', 'l'] : List Char) ++ rest =
      'n' :: (['u', 'l', 'l'] ++ rest) from rfl]
    rw [parseVal.eq_def]
    simp only [if_pos rfl]
    rw [show 'n' :: (['u', 'l', 'l'] ++ rest) = "null".data ++ rest from rfl,
      expectChars_append]
    rfl
  | bool b =>
    cases b with
    | true =>
      rw [encodeVal]
      rw [show (['t', 'r', 'u', 'e'] : List Char) ++ rest =
        't' :: (['r', 'u', 'e'] ++ rest) from rfl]
      rw [parseVal.eq_def]
      simp only [if_neg (by decide : ¬('t' : Char) = 'n'), if_pos rfl]
      rw [show 't' :: (['r', 'u', 'e'] ++ rest) = "true".data ++ rest from rfl,
        expectChars_append]
      rfl
    | false =>
      rw [encodeVal]
      rw [show (['f', 'a', 'l', 's', 'e'] : List Char) ++ rest =
        'f' :: (['a', 'l', 's', 'e'] ++ rest) from rfl]
      rw [parseVal.eq_def]
      simp only [if_neg (by decide : ¬('f' : Char) = 'n'),
        if_neg (by decide : ¬('f' : Char) = 't'), if_pos rfl]
      rw [show 'f' :: (['a', 'l', 's', 'e'] ++ rest) = "false".data ++ rest from rfl,
        expectChars_append]
      rfl
  | str s =>
    rw [encodeVal, encodeString, List.cons_append, parseVal.eq_def]
    simp only [if_neg (by decide : ¬('"' : Char) = 'n'),
      if_neg (by decide : ¬('"' : Char) = 't'),
      if_neg (by decide : ¬('"' : Char) = 'f'), if_pos rfl]
    rw [← List.cons_append, ← encodeString, parseString_encodeString]
    rfl
  | int n =>
    rw [encodeVal]
    by_cases hneg : n < 0
    · rw [show encodeInt n ++ rest = '-' :: (natToDigits n.natAbs ++ rest) by
        rw [encodeInt, if_pos hneg]; rfl]
      rw [parseVal.eq_def]
      simp only [if_neg (by decide : ¬('-' : Char) = 'n'),
        if_neg (by decide : ¬('-' : Char) = 't'),
        if_neg (by decide : ¬('-' : Char) = 'f'),
        if_neg (by decide : ¬('-' : Char) = '"')]
      rw [show '-' :: (natToDigits n.natAbs ++ rest) = encodeInt n ++ rest by
        rw [encodeInt, if_pos hneg]; rfl]
      rw [parseInt_encodeInt n rest hrest]
      rfl
    · have henc : encodeInt n = natToDigits n.natAbs := by
        rw [encodeInt, if_neg hneg]
      cases hd : natToDigits n.natAbs with
      | nil => exact absurd hd (natToDigits_ne_nil _)
      | cons c cs =>
        have hc : isDigitChar c = true :=
          natToDigits_digits n.natAbs c (hd ▸ List.mem_cons_self c cs)
        obtain ⟨hn', ht', hf', hq'⟩ := isDigitChar_ne hc
        rw [henc, hd, List.cons_append, parseVal.eq_def]
        simp only [if_neg hn', if_neg ht', if_neg hf', if_neg hq']
        rw [← List.cons_append, ← hd, ← henc, parseInt_encodeInt n rest hrest]
        rfl

/-! Round-trip lemmas for the page JSON encoding: objects, the row array
and the page envelope. -/

/-- Parsing an encoded row's fields recovers them. -/
theorem parseFields_encode :
    ∀ (fs : Row) (fuel : Nat) (rest : List Char), fs.length < fuel →
      parseFields fuel (encodeFields fs ++ '}' :: rest) = some (fs, rest) := by
  intro fs
  induction fs with
  | nil =>
    intro fuel rest hfuel
    cases fuel with
    | zero => omega
    | succ f =>
      rw [encodeFields, List.nil_append, parseFields]
      simp
  | cons kv fs ih =>
    intro fuel rest hfuel
    cases fuel with
    | zero => omega
    | succ f =>
      obtain ⟨k, v⟩ := kv
      cases fs with
      | nil =>
        have e1 : encodeFields [(k, v)] ++ '}' :: rest =
            '"' :: (((k.data.map escapeChar).flatten ++ ['"']) ++
              (':' :: (encodeVal v ++ '}' :: rest))) := by
          rw [encodeFields, encodeString]
          simp
        have e2 : ('"' :: (((k.data.map escapeChar).flatten ++ ['"']) ++
              (':' :: (encodeVal v ++ '}' :: rest))) : List Char) =
            encodeString k ++ (':' :: (encodeVal v ++ '}' :: rest)) := by
          rw [encodeString]
          simp
        rw [e1, parseFields]
        simp only [if_neg (by decide : ¬('"' : Char) = '}')]
        rw [e2, parseString_encodeString]
        simp only [Option.some_bind]
        rw [show expectChars [':'] (':' :: (encodeVal v ++ '}' :: rest)) =
          some (encodeVal v ++ '}' :: rest) from rfl]
        simp only [Option.some_bind]
        rw [parseVal_encodeVal v ('}' :: rest) (by rfl)]
        simp only [Option.some_bind]
        simp [if_neg (by decide : ¬('}' : Char) = ',')]
      | cons kv2 fs2 =>
        have e1 : encodeFields ((k, v) :: kv2 :: fs2) ++ '}' :: rest =
            '"' :: (((k.data.map escapeChar).flatten ++ ['"']) ++
              (':' :: (encodeVal v ++ ',' ::
                (encodeFields (kv2 :: fs2) ++ '}' :: rest)))) := by
          rw [encodeFields]
          · rw [encodeString]
            simp
          · simp
        have e2 : ('"' :: (((k.data.map escapeChar).flatten ++ ['"']) ++
              (':' :: (encodeVal v ++ ',' ::
                (encodeFields (kv2 :: fs2) ++ '}' :: rest)))) : List Char) =
            encodeString k ++ (':' :: (encodeVal v ++ ',' ::
              (encodeFields (kv2 :: fs2) ++ '}' :: rest))) := by
          rw [encodeString]
          simp
        obtain ⟨t0, ht0⟩ : ∃ t0, encodeFields (kv2 :: fs2) = '"' :: t0 := by
          obtain ⟨kk, vv⟩ := kv2
          cases fs2 with
          | nil =>
            refine ⟨((kk.data.map escapeChar).flatten ++ ['"']) ++
              (':' :: encodeVal vv), ?_⟩
            rw [encodeFields, encodeString]
            simp
          | cons kv3 fs3 =>
            refine ⟨((kk.data.map escapeChar).flatten ++ ['"']) ++
              (':' :: (encodeVal vv ++ ',' :: encodeFields (kv3 :: fs3))), ?_⟩
            rw [encodeFields]
            · rw [encodeString]
              simp
            · simp
        rw [e1, parseFields]
        simp only [if_neg (by decide : ¬('"' : Char) = '}')]
        rw [e2, parseString_encodeString]
        simp only [Option.some_bind]
        rw [show expectChars [':'] (':' :: (encodeVal v ++ ',' ::
            (encodeFields (kv2 :: fs2) ++ '}' :: rest))) =
          some (encodeVal v ++ ',' :: (encodeFields (kv2 :: fs2) ++ '}' :: rest))
          from rfl]
        simp only [Option.some_bind]
        rw [parseVal_encodeVal v _ (by rfl)]
        rw [show encodeFields (kv2 :: fs2) ++ '}' :: rest =
          '"' :: (t0 ++ '}' :: rest) by rw [ht0]; rfl]
        simp only [Option.some_bind]
        rw [show ('"' : Char) :: (t0 ++ '}' :: rest) =
          encodeFields (kv2 :: fs2) ++ '}' :: rest by rw [ht0]; rfl]
        rw [ih f rest (by simpa using Nat.lt_of_succ_lt_succ hfuel)]
        rfl

/-- Unfolding `parseRow` on a cons cell. -/
theorem parseRow_cons (fuel : Nat) (c : Char) (cs : List Char) :
    parseRow fuel (c :: cs) = if c = '{' then parseFields fuel cs else none := rfl

/-- Parsing an encoded row recovers it. -/
theorem parseRow_encodeRow (r : Row) (fuel : Nat) (rest : List Char)
    (h : r.length < fuel) :
    parseRow fuel (encodeRow r ++ rest) = some (r, rest) := by
  have e1 : encodeRow r ++ rest = '{' :: (encodeFields r ++ '}' :: rest) := by
    rw [encodeRow]
    simp
  rw [e1, parseRow_cons, if_pos rfl, parseFields_encode r fuel rest h]

/-- An encoded nonempty row list starts with an object brace. -/
theorem encodeRowsList_cons_head (r : Row) (rows : PageL) :
    ∃ t, encodeRowsList (r :: rows) = '{' :: t := by
  cases rows with
  | nil =>
    refine ⟨encodeFields r ++ ['}'], ?_⟩
    rw [encodeRowsList, encodeRow]
    simp
  | cons r2 rows2 =>
    refine ⟨(encodeFields r ++ ['}']) ++ ',' :: encodeRowsList (r2 :: rows2), ?_⟩
    rw [encodeRowsList]
    · rw [encodeRow]
      simp
    · simp

/-- Parsing the encoded row array recovers the rows, provided the fuel
dominates the row count and each row's field count. -/
theorem parseRowsItems_encode :
    ∀ (rows : PageL) (fuel : Nat) (rest : List Char),
      rows.length < fuel → (∀ r ∈ rows, r.length + rows.length < fuel) →
      parseRowsItems fuel (encodeRowsList rows ++ ']' :: rest) = some (rows, rest) := by
  intro rows
  induction rows with
  | nil =>
    intro fuel rest hfuel _
    cases fuel with
    | zero => omega
    | succ f =>
      rw [encodeRowsList, List.nil_append, parseRowsItems]
      simp
  | cons r rows ih =>
    intro fuel rest hfuel hrows
    cases fuel with
    | zero => omega
    | succ f =>
      have hr : r.length < f + 1 := by
        have := hrows r (List.mem_cons_self r rows)
        omega
      cases rows with
      | nil =>
        have e1 : encodeRowsList [r] ++ ']' :: rest =
            '{' :: (encodeFields r ++ '}' :: (']' :: rest)) := by
          rw [encodeRowsList, encodeRow]
          simp
        rw [e1, parseRowsItems]
        simp only [if_neg (by decide : ¬('{' : Char) = ']')]
        rw [show ('{' : Char) :: (encodeFields r ++ '}' :: (']' :: rest)) =
          encodeRow r ++ (']' :: rest) by rw [encodeRow]; simp]
        rw [parseRow_encodeRow r (f + 1) (']' :: rest) hr]
        simp only [Option.some_bind]
        simp [if_neg (by decide : ¬(']' : Char) = ',')]
      | cons r2 rows2 =>
        obtain ⟨t0, ht0⟩ := encodeRowsList_cons_head r2 rows2
        have e1 : encodeRowsList (r :: r2 :: rows2) ++ ']' :: rest =
            '{' :: (encodeFields r ++ '}' ::
              (',' :: (encodeRowsList (r2 :: rows2) ++ ']' :: rest))) := by
          rw [encodeRowsList]
          · rw [encodeRow]
            simp
          · simp
        rw [e1, parseRowsItems]
        simp only [if_neg (by decide : ¬('{' : Char) = ']')]
        rw [show ('{' : Char) :: (encodeFields r ++ '}' ::
            (',' :: (encodeRowsList (r2 :: rows2) ++ ']' :: rest))) =
          encodeRow r ++ (',' :: (encodeRowsList (r2 :: rows2) ++ ']' :: rest)) by
            rw [encodeRow]; simp]
        rw [parseRow_encodeRow r (f + 1) _ hr]
        rw [show encodeRowsList (r2 :: rows2) ++ ']' :: rest =
          '{' :: (t0 ++ ']' :: rest) by rw [ht0]; rfl]
        simp only [Option.some_bind]
        rw [show ('{' : Char) :: (t0 ++ ']' :: rest) =
          encodeRowsList (r2 :: rows2) ++ ']' :: rest by rw [ht0]; rfl]
        rw [ih f rest (by simp at hfuel ⊢; omega) ?_]
        · rfl
        · intro q hq
          have := hrows q (List.mem_cons_of_mem r hq)
          simp at this ⊢
          omega

/-- The encoded form of a string is at least its two quotes long. -/
theorem encodeString_length_ge (s : String) : 2 ≤ (encodeString s).length := by
  rw [encodeString]
  simp

/-- An encoded field list is at least as long as its field count. -/
theorem encodeFields_length_ge : ∀ fs : Row, fs.length ≤ (encodeFields fs).length := by
  intro fs
  induction fs with
  | nil => simp [encodeFields]
  | cons kv fs ih =>
    obtain ⟨k, v⟩ := kv
    cases fs with
    | nil =>
      rw [encodeFields]
      have := encodeString_length_ge k
      simp
      omega
    | cons kv2 fs2 =>
      rw [encodeFields]
      · have := encodeString_length_ge k
        simp at ih ⊢
        omega
      · simp

/-- An encoded row is at least two braces longer than its field count. -/
theorem encodeRow_length_ge (r : Row) : r.length + 2 ≤ (encodeRow r).length := by
  rw [encodeRow]
  have := encodeFields_length_ge r
  simp
  omega

/-- An encoded row list is at least as long as its row count. -/
theorem encodeRowsList_length_ge :
    ∀ rows : PageL, rows.length ≤ (encodeRowsList rows).length := by
  intro rows
  induction rows with
  | nil => simp [encodeRowsList]
  | cons r rows ih =>
    cases rows with
    | nil =>
      rw [encodeRowsList]
      have := encodeRow_length_ge r
      simp
      omega
    | cons r2 rows2 =>
      rw [encodeRowsList]
      · have := encodeRow_length_ge r
        simp at ih ⊢
        omega
      · simp

/-- Each member row's field count plus the row count is bounded by the
encoded row list's length. -/
theorem encodeRowsList_mem_length_ge :
    ∀ (rows : PageL) (r : Row), r ∈ rows →
      r.length + rows.length ≤ (encodeRowsList rows).length := by
  intro rows
  induction rows with
  | nil => intro r hr; cases hr
  | cons q rows ih =>
    intro r hr
    cases rows with
    | nil =>
      rcases List.mem_cons.mp hr with h | h
      · subst h
        have := encodeRow_length_ge r
        rw [encodeRowsList]
        simp
        omega
      · cases h
    | cons r2 rows2 =>
      have hlen : (encodeRowsList (q :: r2 :: rows2)).length =
          (encodeRow q).length + 1 + (encodeRowsList (r2 :: rows2)).length := by
        rw [encodeRowsList]
        · simp
          omega
        · simp
      rcases List.mem_cons.mp hr with h | h
      · subst h
        have h1 := encodeRow_length_ge r
        have h2 := encodeRowsList_length_ge (r2 :: rows2)
        simp at h2 ⊢
        omega
      · have h1 := ih r h
        have h2 := encodeRow_length_ge q
        simp at h1 ⊢
        omega

/-- Unfolding `parseNat` on a cons cell. -/
theorem parseNat_cons (c : Char) (cs : List Char) :
    parseNat (c :: cs) =
      if isDigitChar c then some (parseDigits (c :: cs) 0) else none := rfl

/-- Parsing the full encoded page envelope recovers the rows. -/
theorem parsePage_encodePage (rows : PageL) :
    parsePage (encodePage rows) = some rows := by
  have e0 : encodePage rows =
      "\x7b\"version\":".data ++ ('1' :: (",\"rows\":[".data ++
        (encodeRowsList rows ++ [']', '}']))) := by
    rw [encodePage,
      show ("\x7b\"version\":1,\"rows\":[".data : List Char) =
        "\x7b\"version\":".data ++ '1' :: ",\"rows\":[".data from rfl]
    simp
  rw [parsePage, e0, expectChars_append]
  simp only [Option.some_bind]
  rw [parseNat_cons, if_pos (by decide : isDigitChar '1' = true)]
  rw [show ('1' : Char) :: (",\"rows\":[".data ++ (encodeRowsList rows ++ [']', '}'])) =
    ['1'] ++ (",\"rows\":[".data ++ (encodeRowsList rows ++ [']', '}'])) from rfl]
  rw [parseDigits_append ['1'] _ 0 (by decide) (by rfl)]
  simp only [Option.some_bind]
  rw [expectChars_append]
  simp only [Option.some_bind]
  rw [show (encodeRowsList rows ++ [']', '}'] : List Char) =
    encodeRowsList rows ++ ']' :: ['}'] from rfl]
  rw [parseRowsItems_encode rows _ ['}']
    (by
      have := encodeRowsList_length_ge rows
      simp
      omega)
    (fun r hr => by
      have := encodeRowsList_mem_length_ge rows r hr
      simp
      omega)]
  simp only [Option.some_bind]
  rw [show expectChars ['}'] ['}'] = some [] from rfl]
  simp

/-- A character with nonzero code point is not the zero byte. -/
theorem ne_nulChar_of_toNat {c : Char} (h : c.toNat ≠ 0) : c ≠ nulChar := by
  intro hc
  rw [hc] at h
  exact h rfl

/-- Hex digit characters are nonzero bytes. -/
theorem hexChar_ne_nul {n : Nat} (h : n < 16) : hexChar n ≠ nulChar := by
  interval_cases n <;> decide

/-- Decimal digit characters are nonzero bytes. -/
theorem digitChar_ne_nul {d : Nat} (h : d < 10) : digitChar d ≠ nulChar := by
  intro hc
  have h1 := digitChar_toNat h
  rw [hc] at h1
  have h0 : nulChar.toNat = 0 := rfl
  omega

/-- The JSON escape of a character emits no zero byte. -/
theorem escapeChar_ne_nul (c : Char) : ∀ x ∈ escapeChar c, x ≠ nulChar := by
  intro x hx
  by_cases h1 : c = '"'
  · rw [escapeChar, if_pos h1] at hx
    rcases List.mem_cons.mp hx with h | h
    · subst h; decide
    · simp at h; subst h; decide
  rw [escapeChar, if_neg h1] at hx
  by_cases h2 : c = '\\'
  · rw [if_pos h2] at hx
    rcases List.mem_cons.mp hx with h | h
    · subst h; decide
    · simp at h; subst h; decide
  rw [if_neg h2] at hx
  by_cases h3 : c = Char.ofNat 8
  · rw [if_pos h3] at hx
    rcases List.mem_cons.mp hx with h | h
    · subst h; decide
    · simp at h; subst h; decide
  rw [if_neg h3] at hx
  by_cases h4 : c = Char.ofNat 9
  · rw [if_pos h4] at hx
    rcases List.mem_cons.mp hx with h | h
    · subst h; decide
    · simp at h; subst h; decide
  rw [if_neg h4] at hx
  by_cases h5 : c = Char.ofNat 10
  · rw [if_pos h5] at hx
    rcases List.mem_cons.mp hx with h | h
    · subst h; decide
    · simp at h; subst h; decide
  rw [if_neg h5] at hx
  by_cases h6 : c = Char.ofNat 12
  · rw [if_pos h6] at hx
    rcases List.mem_cons.mp hx with h | h
    · subst h; decide
    · simp at h; subst h; decide
  rw [if_neg h6] at hx
  by_cases h7 : c = Char.ofNat 13
  · rw [if_pos h7] at hx
    rcases List.mem_cons.mp hx with h | h
    · subst h; decide
    · simp at h; subst h; decide
  rw [if_neg h7] at hx
  by_cases h8 : c.toNat < 0x20
  · rw [if_pos h8] at hx
    simp only [List.mem_cons, List.not_mem_nil, or_false] at hx
    rcases hx with h | h | h | h | h | h
    · subst h; decide
    · subst h; decide
    · subst h; decide
    · subst h; decide
    · subst h; exact hexChar_ne_nul (by omega)
    · subst h; exact hexChar_ne_nul (by omega)
  · rw [if_neg h8] at hx
    simp at hx
    subst hx
    exact ne_nulChar_of_toNat (by omega)

/-- An encoded string contains no zero byte. -/
theorem encodeString_ne_nul (s : String) : ∀ x ∈ encodeString s, x ≠ nulChar := by
  intro x hx
  rw [encodeString] at hx
  rcases List.mem_cons.mp hx with h | h
  · subst h; decide
  rcases List.mem_append.mp h with h | h
  · rcases List.mem_flatten.mp h with ⟨l, hl, hxl⟩
    rcases List.mem_map.mp hl with ⟨ch, _, rfl⟩
    exact escapeChar_ne_nul ch x hxl
  · simp at h; subst h; decide

/-- Every character emitted by `natToDigitsAux` comes from the accumulator
or is a decimal digit. -/
theorem natToDigitsAux_mem :
    ∀ (fuel n : Nat) (acc : List Char) (x : Char),
      x ∈ natToDigitsAux fuel n acc → x ∈ acc ∨ ∃ d, d < 10 ∧ x = digitChar d := by
  intro fuel
  induction fuel with
  | zero =>
    intro n acc x hx
    rw [natToDigitsAux] at hx
    exact Or.inl hx
  | succ f ih =>
    intro n acc x hx
    rw [natToDigitsAux] at hx
    split at hx
    · rename_i hn
      rcases List.mem_cons.mp hx with h | h
      · exact Or.inr ⟨n, hn, h⟩
      · exact Or.inl h
    · rcases ih (n / 10) _ x hx with h | h
      · rcases List.mem_cons.mp h with h2 | h2
        · exact Or.inr ⟨n % 10, by omega, h2⟩
        · exact Or.inl h2
      · exact Or.inr h

/-- An encoded integer contains no zero byte. -/
theorem encodeInt_ne_nul (n : Int) : ∀ x ∈ encodeInt n, x ≠ nulChar := by
  intro x hx
  rw [encodeInt] at hx
  have digits : ∀ m : Nat, x ∈ natToDigits m → x ≠ nulChar := by
    intro m hm
    rw [natToDigits] at hm
    rcases natToDigitsAux_mem _ _ _ x hm with h | ⟨d, hd, rfl⟩
    · cases h
    · exact digitChar_ne_nul hd
  split at hx
  · rcases List.mem_cons.mp hx with h | h
    · subst h; decide
    · exact digits _ h
  · exact digits _ hx

/-- An encoded value contains no zero byte. -/
theorem encodeVal_ne_nul (v : PyVal) : ∀ x ∈ encodeVal v, x ≠ nulChar := by
  intro x hx
  cases v with
  | null =>
    rw [encodeVal] at hx
    exact (by decide : ∀ y ∈ (['n', 'u', 'l', 'l'] : List Char), y ≠ nulChar) x hx
  | bool b =>
    cases b with
    | true =>
      rw [encodeVal] at hx
      exact (by decide : ∀ y ∈ (['t', 'r', 'u', 'e'] : List Char), y ≠ nulChar) x hx
    | false =>
      rw [encodeVal] at hx
      exact (by decide : ∀ y ∈ (['f', 'a', 'l', 's', 'e'] : List Char), y ≠ nulChar) x hx
  | int n => rw [encodeVal] at hx; exact encodeInt_ne_nul n x hx
  | str s => rw [encodeVal] at hx; exact encodeString_ne_nul s x hx

/-- An encoded field list contains no zero byte. -/
theorem encodeFields_ne_nul : ∀ fs : Row, ∀ x ∈ encodeFields fs, x ≠ nulChar := by
  intro fs
  induction fs with
  | nil => intro x hx; rw [encodeFields] at hx; cases hx
  | cons kv fs ih =>
    obtain ⟨k, v⟩ := kv
    cases fs with
    | nil =>
      intro x hx
      rw [encodeFields] at hx
      rcases List.mem_append.mp hx with h | h
      · exact encodeString_ne_nul k x h
      · rcases List.mem_cons.mp h with h2 | h2
        · subst h2; decide
        · exact encodeVal_ne_nul v x h2
    | cons kv2 fs2 =>
      intro x hx
      rw [encodeFields] at hx
      · rcases List.mem_append.mp hx with h | h
        · rcases List.mem_append.mp h with h2 | h2
          · exact encodeString_ne_nul k x h2
          · rcases List.mem_cons.mp h2 with h3 | h3
            · subst h3; decide
            · exact encodeVal_ne_nul v x h3
        · rcases List.mem_cons.mp h with h2 | h2
          · subst h2; decide
          · exact ih x h2
      · simp

/-- An encoded row contains no zero byte. -/
theorem encodeRow_ne_nul (r : Row) : ∀ x ∈ encodeRow r, x ≠ nulChar := by
  intro x hx
  rw [encodeRow] at hx
  rcases List.mem_cons.mp hx with h | h
  · subst h; decide
  rcases List.mem_append.mp h with h2 | h2
  · exact encodeFields_ne_nul r x h2
  · simp at h2; subst h2; decide

/-- An encoded row list contains no zero byte. -/
theorem encodeRowsList_ne_nul : ∀ rows : PageL, ∀ x ∈ encodeRowsList rows, x ≠ nulChar := by
  intro rows
  induction rows with
  | nil => intro x hx; rw [encodeRowsList] at hx; cases hx
  | cons r rows ih =>
    cases rows with
    | nil =>
      intro x hx
      rw [encodeRowsList] at hx
      exact encodeRow_ne_nul r x hx
    | cons r2 rows2 =>
      intro x hx
      rw [encodeRowsList] at hx
      · rcases List.mem_append.mp hx with h | h
        · exact encodeRow_ne_nul r x h
        · rcases List.mem_cons.mp h with h2 | h2
          · subst h2; decide
          · exact ih x h2
      · simp

/-- The full encoded page contains no zero byte. -/
theorem encodePage_ne_nul (rows : PageL) : ∀ x ∈ encodePage rows, x ≠ nulChar := by
  intro x hx
  rw [encodePage] at hx
  rcases List.mem_append.mp hx with h | h
  · rcases List.mem_append.mp h with h2 | h2
    · exact (by decide :
        ∀ y ∈ ("\x7b\"version\":1,\"rows\":[".data : List Char), y ≠ nulChar) x h2
    · exact encodeRowsList_ne_nul rows x h2
  · exact (by decide : ∀ y ∈ ([']', '}'] : List Char), y ≠ nulChar) x h

/-- `dropWhile` skips a run of satisfying elements. -/
theorem dropWhile_replicate (p : Char → Bool) (a : Char) (hp : p a = true) :
    ∀ (k : Nat) (t : List Char),
      List.dropWhile p (List.replicate k a ++ t) = List.dropWhile p t := by
  intro k
  induction k with
  | zero => intro t; rfl
  | succ n ih =>
    intro t
    rw [List.replicate_succ, List.cons_append, List.dropWhile_cons_of_pos hp, ih]

/-- `dropWhile` is the identity when no element satisfies the predicate. -/
theorem dropWhile_of_all_neg (p : Char → Bool) :
    ∀ m : List Char, (∀ x ∈ m, p x = false) → List.dropWhile p m = m := by
  intro m hm
  cases m with
  | nil => rfl
  | cons c t =>
    exact List.dropWhile_cons_of_neg (by rw [hm c (List.mem_cons_self c t)]; decide)

/-- Stripping trailing zero bytes from a zero-free text padded with zero
bytes recovers the text. -/
theorem rstripNul_pad (l : List Char) (k : Nat) (h : ∀ x ∈ l, x ≠ nulChar) :
    rstripNul (l ++ List.replicate k nulChar) = l := by
  rw [rstripNul, List.reverse_append, List.reverse_replicate]
  rw [dropWhile_replicate _ _ (by simp)]
  rw [dropWhile_of_all_neg _ l.reverse ?hneg]
  · exact List.reverse_reverse l
  · intro x hx
    have := h x (List.mem_reverse.mp hx)
    simp [this]

/-- C5: for every page whose rows serialize within the 4096-byte limit,
`Page.serialize` succeeds, and `Page.deserialize` of the resulting padded
buffer yields an equal row sequence, including tombstone markers
(deserialize after serialize is the identity on the row list). -/
theorem pageSerialize_roundTrip (rows : PageL)
    (h : utf8Len (encodePage rows) ≤ PAGE_SIZE) :
    ∃ buf, pageSerialize rows = some buf ∧ pageDeserialize buf = some rows := by
  refine ⟨encodePage rows ++
    List.replicate (PAGE_SIZE - utf8Len (encodePage rows)) nulChar, ?_, ?_⟩
  · rw [show pageSerialize rows =
      (if utf8Len (encodePage rows) > PAGE_SIZE then none
       else some (encodePage rows ++
         List.replicate (PAGE_SIZE - utf8Len (encodePage rows)) nulChar)) from rfl]
    rw [if_neg (by omega)]
  · rw [show pageDeserialize (encodePage rows ++
        List.replicate (PAGE_SIZE - utf8Len (encodePage rows)) nulChar) =
      (if rstripNul (encodePage rows ++
          List.replicate (PAGE_SIZE - utf8Len (encodePage rows)) nulChar) = []
       then some []
       else parsePage (rstripNul (encodePage rows ++
         List.replicate (PAGE_SIZE - utf8Len (encodePage rows)) nulChar))) from rfl]
    rw [rstripNul_pad _ _ (encodePage_ne_nul rows)]
    have hne : encodePage rows ≠ [] := by
      rw [encodePage,
        show ("\x7b\"version\":1,\"rows\":[".data : List Char) =
          '{' :: "\"version\":1,\"rows\":[".data from rfl]
      simp
    rw [if_neg hne]
    exact parsePage_encodePage rows

/-- The round-trip theorem applies to a concrete page holding a live row
and a tombstoned row. -/
theorem pageSerialize_roundTrip_witness :
    utf8Len (encodePage [[("id", PyVal.int 1)],
        [("id", PyVal.int 2), ("__deleted__", PyVal.bool true)]]) ≤ PAGE_SIZE ∧
    ∃ buf,
      pageSerialize [[("id", PyVal.int 1)],
        [("id", PyVal.int 2), ("__deleted__", PyVal.bool true)]] = some buf ∧
      pageDeserialize buf = some [[("id", PyVal.int 1)],
        [("id", PyVal.int 2), ("__deleted__", PyVal.bool true)]] :=
  ⟨by decide, pageSerialize_roundTrip _ (by decide)⟩

end DB
